import Mathlib

set_option maxHeartbeats 1600000

namespace Merkle

/-- A byte, as in Go. -/
abbrev Byte := Fin 256

/-- A hash digest: a byte string of the hasher's size. -/
abbrev Digest := List Byte

/-- An abstract hasher (Go hash.Hash).  Every use in the source is a full
Reset / Write* / Sum cycle, so a cycle is a pure function of the
concatenation of the written byte strings. -/
abbrev Hasher := List Byte → Digest

/-- LeafHash: Reset; Write the domain separator 0x00; Write the string; Sum. -/
def LeafHash (H : Hasher) (s : List Byte) : Digest := H (0 :: s)

/-- The digest computed by interiorHash: Reset; Write the domain separator
0x01; Write left; Write right; Sum. -/
def intH (H : Hasher) (l r : Digest) : Digest := H (1 :: (l ++ r))

/-- ProofStep: one step of a Merkle proof, the sibling digest H and whether
the sibling goes on the left during verification. -/
structure ProofStep where
  h : Digest
  left : Bool
deriving DecidableEq, Repr

/-- The proof-recording state of a proof HTree: the evolving reference digest
(h.ref) and the proof steps recorded so far (h.proof.Steps). -/
structure PAcc where
  ref : Digest
  steps : List ProofStep
deriving DecidableEq, Repr

/-- interiorHash of the source: combine left and right; when a reference
digest is configured and equals one of the operands (left tested first), the
sibling is appended to the proof and the reference becomes the combined
digest. -/
def interiorHash (H : Hasher) (l r : Digest) : Option PAcc → Digest × Option PAcc
  | none => (intH H l r, none)
  | some acc =>
      if acc.ref = l then
        (intH H l r, some ⟨intH H l r, acc.steps ++ [⟨r, false⟩]⟩)
      else if acc.ref = r then
        (intH H l r, some ⟨intH H l r, acc.steps ++ [⟨l, true⟩]⟩)
      else (intH H l r, some acc)

/-- The carry loop of HTree.Add: starting at height 0, append a new level if
all levels are filled, fill the lowest vacant level, and combine the carried
hash with each full level on the way up (the old entry on the left). -/
def addLoop (H : Hasher) : List (Option Digest) → Digest → Option PAcc →
    List (Option Digest) × Option PAcc
  | [], h, acc => ([some h], acc)
  | none :: rest, _h, acc => (some _h :: rest, acc)
  | some d :: rest, h, acc =>
      let p := interiorHash H d h acc
      let q := addLoop H rest p.1 p.2
      (none :: q.1, q.2)

/-- HTree state: the level stack h.hashes (nil entries are vacant levels),
the cached root (nil until finish has run), and the proof-recording state
(nil unless built with NewProofHTree). -/
structure HTree where
  hashes : List (Option Digest)
  root : Option Digest
  pacc : Option PAcc
deriving DecidableEq, Repr

/-- NewHTree: no levels, no cached root, no proof recording. -/
def NewHTree : HTree := ⟨[], none, none⟩

/-- NewProofHTree: additionally holds the reference digest and an empty
proof. -/
def NewProofHTree (ref : Digest) : HTree := ⟨[], none, some ⟨ref, []⟩⟩

/-- HTree.Add: run the carry loop on the level stack.  The source runs it
unconditionally; there is no check that the tree was already finalised, and
the cached root is left alone. -/
def HTree.Add (H : Hasher) (t : HTree) (item : Digest) : HTree :=
  let q := addLoop H t.hashes item t.pacc
  { t with hashes := q.1, pacc := q.2 }

/-- The final combining loop of HTree.finish: fold the present levels from
low to high, each lower level going on the left of the accumulated root. -/
def finishFold (H : Hasher) : List (Option Digest) → Option Digest → Option PAcc →
    Option Digest × Option PAcc
  | [], r, acc => (r, acc)
  | none :: rest, r, acc => finishFold H rest r acc
  | some d :: rest, none, acc => finishFold H rest (some d) acc
  | some d :: rest, some r, acc =>
      let p := interiorHash H d r acc
      finishFold H rest (some p.1) p.2

/-- HTree.finish: return if the root is already cached; with no levels the
root is the hash of no input bytes at all; otherwise fold the levels
upward. -/
def HTree.finish (H : Hasher) (t : HTree) : HTree :=
  if t.root.isSome then t
  else if t.hashes = [] then { t with root := some (H []) }
  else
    let q := finishFold H t.hashes none t.pacc
    { t with root := q.1, pacc := q.2 }

/-- HTree.Root: finish and read the root. -/
def HTree.Root (H : Hasher) (t : HTree) : Digest :=
  ((t.finish H).root).getD []

/-- The steps of the proof returned by HTree.Proof (which also finishes). -/
def HTree.ProofSteps (H : Hasher) (t : HTree) : List ProofStep :=
  ((t.finish H).pacc).elim [] PAcc.steps

/-- Proof: recorded steps plus the flag set by Tree.Proof telling the
verifier to leaf-hash its argument first. -/
structure Proof where
  steps : List ProofStep
  needsLeafHashing : Bool
deriving DecidableEq, Repr

/-- Verification replay: fold the steps over the accumulator, the sibling
going on the side its flag says. -/
def replaySteps (H : Hasher) (start : Digest) (steps : List ProofStep) : Digest :=
  steps.foldl (fun acc st => if st.left then intH H st.h acc else intH H acc st.h) start

/-- Proof.Hash: leaf-hash the reference for Tree proofs (for HTree proofs the
argument is already a digest), then replay the steps. -/
def Proof.Hash (H : Hasher) (p : Proof) (ref : List Byte) : Digest :=
  replaySteps H (if p.needsLeafHashing then LeafHash H ref else ref) p.steps

/-- NewTree: a Tree is an HTree fed leaf hashes (Tree.Add leaf-hashes). -/
def NewTree : HTree := NewHTree

/-- NewProofTree: the reference string is leaf-hashed before being handed to
NewProofHTree. -/
def NewProofTree (H : Hasher) (ref : List Byte) : HTree :=
  NewProofHTree (LeafHash H ref)

/-- Tree.Add: leaf-hash the string and add it to the embedded HTree. -/
def Tree.Add (H : Hasher) (t : HTree) (s : List Byte) : HTree :=
  t.Add H (LeafHash H s)

/-- Tree.Root delegates to the embedded HTree. -/
def Tree.Root (H : Hasher) (t : HTree) : Digest := HTree.Root H t

/-- Tree.Proof: the embedded HTree proof with needsLeafHashing set. -/
def Tree.Proof (H : Hasher) (t : HTree) : Proof :=
  ⟨HTree.ProofSteps H t, true⟩

/-- Feeding a list of strings to a Tree in order. -/
def Tree.AddAll (H : Hasher) (t : HTree) (items : List (List Byte)) : HTree :=
  items.foldl (Tree.Add H) t

/-- Feeding a list of leaf hashes to an HTree in order. -/
def HTree.AddAll (H : Hasher) (t : HTree) (items : List Digest) : HTree :=
  items.foldl (HTree.Add H) t

/-- Claim C2: for every hasher, the root of a freshly created tree with zero
leaves added is the hash of zero input bytes. -/
theorem c2_empty_tree_root (H : Hasher) : Tree.Root H NewTree = H [] := rfl

/-- The replay invariant: the steps recorded so far replay the original
reference digest to the current reference digest. -/
def PGood (H : Hasher) (ref0 : Digest) (a : PAcc) : Prop :=
  replaySteps H ref0 a.steps = a.ref

lemma replaySteps_append (H : Hasher) (start : Digest) (s1 s2 : List ProofStep) :
    replaySteps H start (s1 ++ s2) = replaySteps H (replaySteps H start s1) s2 :=
  List.foldl_append _ _ _ _

lemma interiorHash_some (H : Hasher) (l r : Digest) (a : PAcc) :
    ∃ a2, interiorHash H l r (some a) = (intH H l r, some a2) := by
  by_cases h1 : a.ref = l
  · exact ⟨⟨intH H l r, a.steps ++ [⟨r, false⟩]⟩, by rw [interiorHash, if_pos h1]⟩
  · by_cases h2 : a.ref = r
    · exact ⟨⟨intH H l r, a.steps ++ [⟨l, true⟩]⟩, by
        rw [interiorHash, if_neg h1, if_pos h2]⟩
    · exact ⟨a, by rw [interiorHash, if_neg h1, if_neg h2]⟩

lemma interiorHash_good (H : Hasher) (ref0 l r : Digest) (a a2 : PAcc)
    (heq : interiorHash H l r (some a) = (intH H l r, some a2))
    (hg : PGood H ref0 a) : PGood H ref0 a2 := by
  by_cases h1 : a.ref = l
  · rw [interiorHash, if_pos h1] at heq
    cases heq
    show replaySteps H ref0 (a.steps ++ [⟨r, false⟩]) = intH H l r
    rw [replaySteps_append, hg]
    simp [replaySteps, h1]
  · by_cases h2 : a.ref = r
    · rw [interiorHash, if_neg h1, if_pos h2] at heq
      cases heq
      show replaySteps H ref0 (a.steps ++ [⟨l, true⟩]) = intH H l r
      rw [replaySteps_append, hg]
      simp [replaySteps, h2]
    · rw [interiorHash, if_neg h1, if_neg h2] at heq
      cases heq
      exact hg

lemma interiorHash_hit (H : Hasher) (l r : Digest) (a a2 : PAcc)
    (heq : interiorHash H l r (some a) = (intH H l r, some a2))
    (hm : a.ref = l ∨ a.ref = r) : a2.ref = intH H l r := by
  by_cases h1 : a.ref = l
  · rw [interiorHash, if_pos h1] at heq
    cases heq
    rfl
  · have h2 : a.ref = r := hm.resolve_left h1
    rw [interiorHash, if_neg h1, if_pos h2] at heq
    cases heq
    rfl

lemma interiorHash_miss (H : Hasher) (l r : Digest) (a a2 : PAcc)
    (heq : interiorHash H l r (some a) = (intH H l r, some a2))
    (h1 : a.ref ≠ l) (h2 : a.ref ≠ r) : a2 = a := by
  rw [interiorHash, if_neg h1, if_neg h2] at heq
  cases heq
  rfl

lemma addLoop_good (H : Hasher) (ref0 : Digest) :
    ∀ (ls : List (Option Digest)) (h : Digest) (a : PAcc), PGood H ref0 a →
      ∃ a2, (addLoop H ls h (some a)).2 = some a2 ∧ PGood H ref0 a2 := by
  intro ls
  induction ls with
  | nil => exact fun h a hg => ⟨a, rfl, hg⟩
  | cons o rest ih =>
    intro h a hg
    match o with
    | none => exact ⟨a, rfl, hg⟩
    | some d =>
      obtain ⟨a1, ha1⟩ := interiorHash_some H d h a
      have hg1 := interiorHash_good H ref0 d h a a1 ha1 hg
      obtain ⟨a2, ha2, hg2⟩ := ih (intH H d h) a1 hg1
      refine ⟨a2, ?_, hg2⟩
      simp only [addLoop, ha1]
      exact ha2

lemma addLoop_live (H : Hasher) :
    ∀ (ls : List (Option Digest)) (h : Digest) (a : PAcc),
      (a.ref = h ∨ some a.ref ∈ ls) →
      ∃ a2, (addLoop H ls h (some a)).2 = some a2 ∧
        some a2.ref ∈ (addLoop H ls h (some a)).1 := by
  intro ls
  induction ls with
  | nil =>
    intro h a hm
    rcases hm with hm | hm
    · exact ⟨a, rfl, by simp [addLoop, hm]⟩
    · simp at hm
  | cons o rest ih =>
    intro h a hm
    match o with
    | none =>
      rcases hm with hm | hm
      · exact ⟨a, rfl, by simp [addLoop, hm]⟩
      · rcases List.mem_cons.1 hm with hh | hh
        · cases hh
        · exact ⟨a, rfl, by simp [addLoop, hh]⟩
    | some d =>
      obtain ⟨a1, ha1⟩ := interiorHash_some H d h a
      by_cases hmatch : a.ref = d ∨ a.ref = h
      · have hr1 : a1.ref = intH H d h := interiorHash_hit H d h a a1 ha1 hmatch
        obtain ⟨a2, ha2, hmem⟩ := ih (intH H d h) a1 (Or.inl hr1)
        refine ⟨a2, ?_, ?_⟩
        · simp only [addLoop, ha1]
          exact ha2
        · simp only [addLoop, ha1]
          exact List.mem_cons_of_mem _ hmem
      · push_neg at hmatch
        have ha1a : a1 = a := interiorHash_miss H d h a a1 ha1 hmatch.1 hmatch.2
        have hmem : some a.ref ∈ rest := by
          rcases hm with hm | hm
          · exact absurd hm hmatch.2
          · rcases List.mem_cons.1 hm with hh | hh
            · exact absurd (Option.some.inj hh) hmatch.1
            · exact hh
        obtain ⟨a2, ha2, hmem2⟩ := ih (intH H d h) a1 (Or.inr (ha1a ▸ hmem))
        refine ⟨a2, ?_, ?_⟩
        · simp only [addLoop, ha1]
          exact ha2
        · simp only [addLoop, ha1]
          exact List.mem_cons_of_mem _ hmem2

lemma addLoop_ref_cases (H : Hasher) :
    ∀ (ls : List (Option Digest)) (h : Digest) (a : PAcc),
      ∃ a2, (addLoop H ls h (some a)).2 = some a2 ∧
        (a2 = a ∨ some a2.ref ∈ (addLoop H ls h (some a)).1) := by
  intro ls
  induction ls with
  | nil => exact fun h a => ⟨a, rfl, Or.inl rfl⟩
  | cons o rest ih =>
    intro h a
    match o with
    | none => exact ⟨a, rfl, Or.inl rfl⟩
    | some d =>
      obtain ⟨a1, ha1⟩ := interiorHash_some H d h a
      by_cases hmatch : a.ref = d ∨ a.ref = h
      · have hr1 : a1.ref = intH H d h := interiorHash_hit H d h a a1 ha1 hmatch
        obtain ⟨a2, ha2, hmem⟩ := addLoop_live H rest (intH H d h) a1 (Or.inl hr1)
        refine ⟨a2, ?_, Or.inr ?_⟩
        · simp only [addLoop, ha1]
          exact ha2
        · simp only [addLoop, ha1]
          exact List.mem_cons_of_mem _ hmem
      · push_neg at hmatch
        have ha1a : a1 = a := interiorHash_miss H d h a a1 ha1 hmatch.1 hmatch.2
        obtain ⟨a2, ha2, hcase⟩ := ih (intH H d h) a1
        refine ⟨a2, ?_, ?_⟩
        · simp only [addLoop, ha1]
          exact ha2
        · rcases hcase with hc | hc
          · exact Or.inl (hc.trans ha1a)
          · refine Or.inr ?_
            simp only [addLoop, ha1]
            exact List.mem_cons_of_mem _ hc

lemma finishFold_final (H : Hasher) (ref0 : Digest) :
    ∀ (ls : List (Option Digest)) (r : Option Digest) (a : PAcc),
      PGood H ref0 a → (some a.ref ∈ ls ∨ r = some a.ref) →
      ∃ a2, finishFold H ls r (some a) = (some a2.ref, some a2) ∧ PGood H ref0 a2 := by
  intro ls
  induction ls with
  | nil =>
    intro r a hg hm
    rcases hm with hm | hm
    · simp at hm
    · exact ⟨a, by simp [finishFold, hm], hg⟩
  | cons o rest ih =>
    intro r a hg hm
    match o with
    | none =>
      have hm2 : some a.ref ∈ rest ∨ r = some a.ref := by
        rcases hm with hm | hm
        · rcases List.mem_cons.1 hm with hh | hh
          · cases hh
          · exact Or.inl hh
        · exact Or.inr hm
      exact ih r a hg hm2
    | some d =>
      match r with
      | none =>
        have hm2 : some a.ref ∈ rest ∨ (some d : Option Digest) = some a.ref := by
          rcases hm with hm | hm
          · rcases List.mem_cons.1 hm with hh | hh
            · exact Or.inr hh.symm
            · exact Or.inl hh
          · cases hm
        exact ih (some d) a hg hm2
      | some rv =>
        obtain ⟨a1, ha1⟩ := interiorHash_some H d rv a
        have hg1 := interiorHash_good H ref0 d rv a a1 ha1 hg
        by_cases hmatch : a.ref = d ∨ a.ref = rv
        · have hr1 : a1.ref = intH H d rv := interiorHash_hit H d rv a a1 ha1 hmatch
          obtain ⟨a2, ha2, hg2⟩ := ih (some (intH H d rv)) a1 hg1 (Or.inr (by rw [hr1]))
          refine ⟨a2, ?_, hg2⟩
          simp only [finishFold, ha1]
          exact ha2
        · push_neg at hmatch
          have ha1a : a1 = a := interiorHash_miss H d rv a a1 ha1 hmatch.1 hmatch.2
          have hmem : some a.ref ∈ rest := by
            rcases hm with hm | hm
            · rcases List.mem_cons.1 hm with hh | hh
              · exact absurd (Option.some.inj hh) hmatch.1
              · exact hh
            · exact absurd (Option.some.inj hm.symm) hmatch.2
          obtain ⟨a2, ha2, hg2⟩ := ih (some (intH H d rv)) a1 hg1 (Or.inl (ha1a ▸ hmem))
          refine ⟨a2, ?_, hg2⟩
          simp only [finishFold, ha1]
          exact ha2

lemma add_pacc (H : Hasher) (t : HTree) (item : Digest) :
    (t.Add H item).pacc = (addLoop H t.hashes item t.pacc).2 := rfl

lemma add_hashes (H : Hasher) (t : HTree) (item : Digest) :
    (t.Add H item).hashes = (addLoop H t.hashes item t.pacc).1 := rfl

lemma add_root (H : Hasher) (t : HTree) (item : Digest) :
    (t.Add H item).root = t.root := rfl

lemma addAll_root (H : Hasher) (items : List Digest) :
    ∀ t : HTree, (t.AddAll H items).root = t.root := by
  induction items with
  | nil => exact fun t => rfl
  | cons x rest ih => exact fun t => (ih (t.Add H x)).trans rfl

/-- Once the reference digest sits in the level stack, any further batch of
adds keeps it (or its updated value) in the stack, maintaining the replay
invariant. -/
lemma addAll_inv (H : Hasher) (ref0 : Digest) (items : List Digest) :
    ∀ (t : HTree) (a : PAcc), t.pacc = some a → PGood H ref0 a →
      some a.ref ∈ t.hashes →
      ∃ a2, (t.AddAll H items).pacc = some a2 ∧ PGood H ref0 a2 ∧
        some a2.ref ∈ (t.AddAll H items).hashes := by
  induction items with
  | nil => exact fun t a hp hg hm => ⟨a, hp, hg, hm⟩
  | cons x rest ih =>
    intro t a hp hg hm
    obtain ⟨b, hb, hbg⟩ := addLoop_good H ref0 t.hashes x a hg
    obtain ⟨b2, hb2, hbm⟩ := addLoop_live H t.hashes x a (Or.inr hm)
    have hbb : b2 = b := Option.some.inj (hb2.symm.trans hb)
    subst hbb
    have hpac : (t.Add H x).pacc = some b2 := by rw [add_pacc, hp, hb]
    have hmem : some b2.ref ∈ (t.Add H x).hashes := by rw [add_hashes, hp]; exact hbm
    exact ih (t.Add H x) b2 hpac hbg hmem

/-- Processing any batch of leaf hashes either leaves the proof state
untouched or leaves the reference digest sitting in the level stack; the
replay invariant is maintained either way. -/
lemma addAll_ref_cases (H : Hasher) (ref0 : Digest) (items : List Digest) :
    ∀ (t : HTree) (a : PAcc), t.pacc = some a → PGood H ref0 a →
      ∃ a2, (t.AddAll H items).pacc = some a2 ∧ PGood H ref0 a2 ∧
        (a2 = a ∨ some a2.ref ∈ (t.AddAll H items).hashes) := by
  induction items with
  | nil => exact fun t a hp hg => ⟨a, hp, hg, Or.inl rfl⟩
  | cons x rest ih =>
    intro t a hp hg
    obtain ⟨b, hb, hbg⟩ := addLoop_good H ref0 t.hashes x a hg
    obtain ⟨b2, hb2, hbc⟩ := addLoop_ref_cases H t.hashes x a
    have hbb : b2 = b := Option.some.inj (hb2.symm.trans hb)
    subst hbb
    have hpac : (t.Add H x).pacc = some b2 := by rw [add_pacc, hp, hb]
    rcases hbc with hc | hc
    · subst hc
      obtain ⟨a2, ha2, hag, hac⟩ := ih (t.Add H x) b2 hpac hbg
      exact ⟨a2, ha2, hag, hac⟩
    · have hmem : some b2.ref ∈ (t.Add H x).hashes := by rw [add_hashes, hp]; exact hc
      obtain ⟨a2, ha2, hag, ham⟩ := addAll_inv H ref0 rest (t.Add H x) b2 hpac hbg hmem
      exact ⟨a2, ha2, hag, Or.inr ham⟩

lemma htree_addAll_append (H : Hasher) (t : HTree) (l1 l2 : List Digest) :
    t.AddAll H (l1 ++ l2) = (t.AddAll H l1).AddAll H l2 :=
  List.foldl_append _ _ _ _

lemma tree_addAll_eq_htree (H : Hasher) (items : List (List Byte)) :
    ∀ t : HTree, Tree.AddAll H t items = t.AddAll H (items.map (LeafHash H)) := by
  induction items with
  | nil => exact fun t => rfl
  | cons x rest ih => exact fun t => ih (t.Add H (LeafHash H x))

/-- Proof soundness at the HTree level: if the reference digest is fed to a
proof HTree somewhere in the stream, the recorded steps replay the reference
digest to the root. -/
lemma htree_proof_sound_aux (H : Hasher) (ref0 : Digest) (hs1 hs2 : List Digest) :
    replaySteps H ref0
        (HTree.ProofSteps H (HTree.AddAll H (NewProofHTree ref0) (hs1 ++ ref0 :: hs2))) =
      HTree.Root H (HTree.AddAll H (NewProofHTree ref0) (hs1 ++ ref0 :: hs2)) := by
  have ha0 : (NewProofHTree ref0).pacc = some ⟨ref0, []⟩ := rfl
  have hg0 : PGood H ref0 ⟨ref0, []⟩ := rfl
  obtain ⟨a1, ha1, hg1, hc1⟩ :=
    addAll_ref_cases H ref0 hs1 (NewProofHTree ref0) ⟨ref0, []⟩ ha0 hg0
  set t1 := (NewProofHTree ref0).AddAll H hs1 with ht1
  have hdisj : a1.ref = ref0 ∨ some a1.ref ∈ t1.hashes := by
    rcases hc1 with hc | hc
    · exact Or.inl (by rw [hc])
    · exact Or.inr hc
  obtain ⟨b, hb, hbg⟩ := addLoop_good H ref0 t1.hashes ref0 a1 hg1
  obtain ⟨b2, hb2, hbm⟩ := addLoop_live H t1.hashes ref0 a1 hdisj
  have hbb : b2 = b := Option.some.inj (hb2.symm.trans hb)
  subst hbb
  set t2 := t1.Add H ref0 with ht2
  have hpac2 : t2.pacc = some b2 := by rw [ht2, add_pacc, ha1, hb]
  have hmem2 : some b2.ref ∈ t2.hashes := by rw [ht2, add_hashes, ha1]; exact hbm
  obtain ⟨a3, ha3, hg3, hm3⟩ := addAll_inv H ref0 hs2 t2 b2 hpac2 hbg hmem2
  set t3 := t2.AddAll H hs2 with ht3
  have hroot3 : t3.root = none := by
    rw [ht3, addAll_root, ht2, add_root, ht1, addAll_root]
    rfl
  have hne3 : t3.hashes ≠ [] := List.ne_nil_of_mem hm3
  obtain ⟨a4, ha4, hg4⟩ :=
    finishFold_final H ref0 t3.hashes none a3 hg3 (Or.inl hm3)
  have hT : (NewProofHTree ref0).AddAll H (hs1 ++ ref0 :: hs2) = t3 := by
    rw [htree_addAll_append]
    rfl
  rw [hT]
  have hfin : t3.finish H = { t3 with
      root := (finishFold H t3.hashes none t3.pacc).1,
      pacc := (finishFold H t3.hashes none t3.pacc).2 } := by
    rw [HTree.finish, hroot3]
    simp [hne3]
  have hff : finishFold H t3.hashes none t3.pacc = (some a4.ref, some a4) := by
    rw [ha3]; exact ha4
  rw [HTree.ProofSteps, HTree.Root, hfin, hff]
  exact hg4

/-- Claim C1: proof soundness.  For every hasher H, every sequence of byte
strings, and every reference string equal to the i-th element, building a
proof tree with NewProofTree(H, ref), adding every string in order, and
verifying the returned proof against ref reproduces the Merkle root. -/
theorem c1_proof_soundness (H : Hasher) (items : List (List Byte)) (i : ℕ)
    (hi : i < items.length) :
    (Tree.Proof H (Tree.AddAll H (NewProofTree H items[i]) items)).Hash H items[i] =
      Tree.Root H (Tree.AddAll H (NewProofTree H items[i]) items) := by
  have hsplit : items.map (LeafHash H) =
      (items.take i).map (LeafHash H) ++
        LeafHash H items[i] :: (items.drop (i + 1)).map (LeafHash H) := by
    conv_lhs => rw [← List.take_append_drop i items]
    rw [← @List.cons_getElem_drop_succ _ items i hi, List.map_append, List.map_cons]
  rw [Tree.Proof, Proof.Hash, tree_addAll_eq_htree, Tree.Root]
  simp only [if_pos]
  rw [hsplit]
  exact htree_proof_sound_aux H (LeafHash H items[i]) _ _

/-- Witness for C1 at a concrete hasher (the identity function on byte
strings), a concrete three-element sequence and reference index 1. -/
theorem c1_proof_soundness_witness :
    1 < ([[1], [2], [3]] : List (List Byte)).length ∧
      (Tree.Proof (fun l => l)
            (Tree.AddAll (fun l => l)
              (NewProofTree (fun l => l) [2]) [[1], [2], [3]])).Hash (fun l => l) [2] =
        Tree.Root (fun l => l)
          (Tree.AddAll (fun l => l)
            (NewProofTree (fun l => l) [2]) [[1], [2], [3]]) :=
  ⟨by decide, c1_proof_soundness (fun l => l) [[1], [2], [3]] 1 (by decide)⟩

lemma addLoop_mem_some (H : Hasher) :
    ∀ (ls : List (Option Digest)) (h : Digest) (acc : Option PAcc),
      ∃ d, some d ∈ (addLoop H ls h acc).1 := by
  intro ls
  induction ls with
  | nil => exact fun h acc => ⟨h, by simp [addLoop]⟩
  | cons o rest ih =>
    intro h acc
    match o with
    | none => exact ⟨h, by simp [addLoop]⟩
    | some d =>
      obtain ⟨d2, hd2⟩ := ih (interiorHash H d h acc).1 (interiorHash H d h acc).2
      exact ⟨d2, by simp only [addLoop]; exact List.mem_cons_of_mem _ hd2⟩

lemma addAll_mem_some (H : Hasher) :
    ∀ (items : List Digest) (t : HTree), items ≠ [] →
      ∃ d, some d ∈ (t.AddAll H items).hashes := by
  intro items
  induction items with
  | nil => exact fun t h => absurd rfl h
  | cons x rest ih =>
    intro t _
    match rest, ih with
    | [], _ => exact addLoop_mem_some H t.hashes x t.pacc
    | y :: rest2, ih => exact ih (t.Add H x) (by simp)

lemma finishFold_isSome (H : Hasher) :
    ∀ (ls : List (Option Digest)) (r : Option Digest) (acc : Option PAcc),
      (∃ d, some d ∈ ls) ∨ r.isSome = true → ((finishFold H ls r acc).1).isSome = true := by
  intro ls
  induction ls with
  | nil =>
    intro r acc hm
    rcases hm with ⟨d, hd⟩ | hm
    · simp at hd
    · exact hm
  | cons o rest ih =>
    intro r acc hm
    match o with
    | none =>
      refine ih r acc ?_
      rcases hm with ⟨d, hd⟩ | hm
      · rcases List.mem_cons.1 hd with hh | hh
        · cases hh
        · exact Or.inl ⟨d, hh⟩
      · exact Or.inr hm
    | some d =>
      match r with
      | none => exact ih (some d) acc (Or.inr rfl)
      | some rv => exact ih _ _ (Or.inr rfl)

/-- Any finished reachable HTree has a cached root. -/
lemma finish_reachable_isSome (H : Hasher) (items : List Digest) :
    (((NewHTree.AddAll H items).finish H).root).isSome = true := by
  match items, addAll_mem_some H items NewHTree with
  | [], _ => rfl
  | x :: rest, hmem =>
    obtain ⟨d, hd⟩ := hmem (by simp)
    have hne : (NewHTree.AddAll H (x :: rest)).hashes ≠ [] := List.ne_nil_of_mem hd
    have hroot : (NewHTree.AddAll H (x :: rest)).root = none := by
      rw [addAll_root]; rfl
    rw [HTree.finish, hroot]
    simp only [Option.isSome_none, Bool.false_eq_true, if_false, if_neg hne]
    exact finishFold_isSome H _ none _ (Or.inl ⟨d, hd⟩)

/-- Counterexample to claim C8, at the concrete hasher Id and concrete
inputs: in the current implementation, calling Add on an HTree after Root
or Proof has been called (which runs finish and caches the root) is
accepted — HTree.Add runs the ordinary carry loop, with no panic and no
error path — it mutates the level stack, the tree still reports the old
root, and on a proof HTree the carry loop even appends a further proof
step (the reference digest sits in the level stack and matches the left
operand) that a later Proof reports.  Nothing is reported loudly.  (Only
the historical channel-based variant panicked on send-after-close.) -/
theorem c8_counterexample :
    ((((NewProofHTree [0]).Add (fun l => l) [0]).finish (fun l => l)).Add
          (fun l => l) [5]).hashes ≠
        (((NewProofHTree [0]).Add (fun l => l) [0]).finish (fun l => l)).hashes ∧
      HTree.Root (fun l => l)
          ((((NewProofHTree [0]).Add (fun l => l) [0]).finish (fun l => l)).Add
            (fun l => l) [5]) =
        HTree.Root (fun l => l)
          (((NewProofHTree [0]).Add (fun l => l) [0]).finish (fun l => l)) ∧
      HTree.ProofSteps (fun l => l)
          (((NewProofHTree [0]).Add (fun l => l) [0]).finish (fun l => l)) = [] ∧
      HTree.ProofSteps (fun l => l)
          ((((NewProofHTree [0]).Add (fun l => l) [0]).finish (fun l => l)).Add
            (fun l => l) [5]) = [⟨[5], false⟩] :=
  ⟨by decide, by decide, by decide, by decide⟩

/-- Any finished HTree that started from an empty level stack — a fresh
NewHTree (pacc0 = none) or a fresh NewProofHTree (pacc0 = some ⟨ref, []⟩)
— and was fed any items has a cached root. -/
lemma finish_start_isSome (H : Hasher) (pacc0 : Option PAcc)
    (items : List Digest) :
    (((HTree.AddAll H ⟨[], none, pacc0⟩ items).finish H).root).isSome = true := by
  match items, addAll_mem_some H items ⟨[], none, pacc0⟩ with
  | [], _ => rfl
  | x :: rest, hmem =>
    obtain ⟨d, hd⟩ := hmem (by simp)
    have hne : (HTree.AddAll H ⟨[], none, pacc0⟩ (x :: rest)).hashes ≠ [] :=
      List.ne_nil_of_mem hd
    have hroot : (HTree.AddAll H ⟨[], none, pacc0⟩ (x :: rest)).root = none := by
      rw [addAll_root]
    rw [HTree.finish, hroot]
    simp only [Option.isSome_none, Bool.false_eq_true, if_false, if_neg hne]
    exact finishFold_isSome H _ none _ (Or.inl ⟨d, hd⟩)

/-- Claim C8, amended: on the current implementation, calling Add on a
finalised HTree — whether a plain one (pacc0 = none, i.e. NewHTree) or a
proof one (pacc0 = some ⟨ref, []⟩, i.e. NewProofHTree) — is not reported
at all: the call is accepted and runs the ordinary carry loop (mutating
the level stack, and on a proof tree possibly appending further proof
steps that later Proof calls report, as the counterexample shows), while
the cached root field — and hence every subsequent Root report — is
unchanged.  (A Tree delegates Add and Root to its HTree, so the same
holds for Tree.) -/
theorem c8_amended (H : Hasher) (pacc0 : Option PAcc) (items : List Digest)
    (item : Digest) :
    (((HTree.AddAll H ⟨[], none, pacc0⟩ items).finish H).Add H item).root =
        ((HTree.AddAll H ⟨[], none, pacc0⟩ items).finish H).root ∧
      HTree.Root H
          (((HTree.AddAll H ⟨[], none, pacc0⟩ items).finish H).Add H item) =
        HTree.Root H ((HTree.AddAll H ⟨[], none, pacc0⟩ items).finish H) := by
  refine ⟨rfl, ?_⟩
  have hs : (((HTree.AddAll H ⟨[], none, pacc0⟩ items).finish H).root).isSome
      = true := finish_start_isSome H pacc0 items
  have key : ∀ u : HTree, u.root.isSome = true →
      HTree.Root H u = u.root.getD [] := by
    intro u hu
    rw [HTree.Root, HTree.finish, if_pos hu]
  rw [key _ hs,
    key (((HTree.AddAll H ⟨[], none, pacc0⟩ items).finish H).Add H item) hs]
  rfl

/-- Combine adjacent pairs of digests with the interior hash, the earlier
digest on the left; an odd leftover is dropped (it stays at the lower
level of the stack). -/
def pairUp (H : Hasher) : List Digest → List Digest
  | [] => []
  | [_] => []
  | a :: b :: r => intH H a b :: pairUp H r

/-- The root of the fully balanced Merkle subtree over a block of 2 ^ i
consecutive leaf digests: pair adjacent digests i times. -/
def pRoot (H : Hasher) : ℕ → List Digest → Digest
  | 0, l => l.headI
  | i + 1, l => pRoot H i (pairUp H l)

/-- The binary-counter invariant tying an HTree level stack to the leaf
digests added so far: level 0 holds the last leaf exactly when the count is
odd, and the higher levels are the same invariant over the pairwise-combined
digests. -/
def LevelsInv (H : Hasher) : List (Option Digest) → List Digest → Prop
  | [], items => items = []
  | o :: rest, items =>
      o = (if items.length % 2 = 1 then some (items.getLast?.getD []) else none) ∧
        LevelsInv H rest (pairUp H items)

lemma interiorHash_fst (H : Hasher) (l r : Digest) (acc : Option PAcc) :
    (interiorHash H l r acc).1 = intH H l r := by
  match acc with
  | none => rfl
  | some a =>
    rw [interiorHash]
    split
    · rfl
    split
    · rfl
    · rfl

lemma pairUp_append_even (H : Hasher) :
    ∀ l : List Digest, l.length % 2 = 0 → ∀ x, pairUp H (l ++ [x]) = pairUp H l
  | [], _, x => rfl
  | [a], h, x => by simp at h
  | a :: b :: r, h, x => by
    have hr : r.length % 2 = 0 := by simp [Nat.add_mod] at h; omega
    show intH H a b :: pairUp H (r ++ [x]) = intH H a b :: pairUp H r
    rw [pairUp_append_even H r hr x]

lemma pairUp_append_odd (H : Hasher) :
    ∀ l : List Digest, l.length % 2 = 1 →
      ∀ x, pairUp H (l ++ [x]) = pairUp H l ++ [intH H (l.getLast?.getD []) x]
  | [], h, x => by simp at h
  | [a], _, x => rfl
  | a :: b :: r, h, x => by
    have hr : r.length % 2 = 1 := by simp [Nat.add_mod] at h; omega
    have hne : r ≠ [] := by
      intro hnil
      rw [hnil] at hr
      simp at hr
    show intH H a b :: pairUp H (r ++ [x]) =
      (intH H a b :: pairUp H r) ++ [intH H ((a :: b :: r).getLast?.getD []) x]
    rw [pairUp_append_odd H r hr x]
    have : (a :: b :: r).getLast? = r.getLast? := by
      rw [List.getLast?_cons_cons]
      match r, hne with
      | c :: r2, _ => rw [List.getLast?_cons_cons]
    rw [this]
    rfl

lemma pairUp_length (H : Hasher) : ∀ l : List Digest, (pairUp H l).length = l.length / 2
  | [] => rfl
  | [_] => by simp [pairUp]
  | a :: b :: r => by
    show (pairUp H r).length + 1 = (r.length + 1 + 1) / 2
    rw [pairUp_length H r]
    omega

lemma pairUp_drop (H : Hasher) :
    ∀ (l : List Digest) (k : ℕ), pairUp H (l.drop (2 * k)) = (pairUp H l).drop k
  | _, 0 => by simp
  | [], k + 1 => by simp [pairUp]
  | [a], k + 1 => by
    have h1 : ([a] : List Digest).drop (2 * (k + 1)) = [] := by
      apply List.drop_eq_nil_of_le
      simp only [List.length_cons, List.length_nil]
      omega
    rw [h1]
    rfl
  | a :: b :: r, k + 1 => by
    have h2 : 2 * (k + 1) = 2 * k + 1 + 1 := by ring
    rw [h2, List.drop_succ_cons, List.drop_succ_cons]
    show pairUp H (r.drop (2 * k)) = (intH H a b :: pairUp H r).drop (k + 1)
    rw [List.drop_succ_cons]
    exact pairUp_drop H r k

lemma pairUp_take (H : Hasher) :
    ∀ (l : List Digest) (k : ℕ), pairUp H (l.take (2 * k)) = (pairUp H l).take k
  | _, 0 => by simp [pairUp]
  | [], k + 1 => by simp [pairUp]
  | [a], k + 1 => by
    have h1 : ([a] : List Digest).take (2 * (k + 1)) = [a] := by
      apply List.take_of_length_le
      simp only [List.length_cons, List.length_nil]
      omega
    rw [h1]
    rfl
  | a :: b :: r, k + 1 => by
    have h2 : 2 * (k + 1) = 2 * k + 1 + 1 := by ring
    rw [h2, List.take_succ_cons, List.take_succ_cons]
    show intH H a b :: pairUp H (r.take (2 * k)) = (intH H a b :: pairUp H r).take (k + 1)
    rw [List.take_succ_cons]
    rw [pairUp_take H r k]

lemma drop_length_pred :
    ∀ l : List Digest, l ≠ [] → l.drop (l.length - 1) = [l.getLast?.getD []]
  | [a], _ => rfl
  | a :: b :: r, _ => by
    have ih := drop_length_pred (b :: r) (by simp)
    have h1 : (a :: b :: r).length - 1 = (b :: r).length - 1 + 1 := by
      simp
    rw [h1, List.drop_succ_cons, ih, List.getLast?_cons_cons]

/-- One Add preserves the binary-counter invariant, the new leaf digest
appended to the leaf sequence. -/
lemma addLoop_levelsInv (H : Hasher) :
    ∀ (ls : List (Option Digest)) (items : List Digest) (h : Digest) (acc : Option PAcc),
      LevelsInv H ls items → LevelsInv H (addLoop H ls h acc).1 (items ++ [h]) := by
  intro ls
  induction ls with
  | nil =>
    intro items h acc hinv
    have : items = [] := hinv
    subst this
    exact ⟨by simp, rfl⟩
  | cons o rest ih =>
    intro items h acc hinv
    obtain ⟨hhead, htail⟩ := hinv
    by_cases hpar : items.length % 2 = 1
    · rw [if_pos hpar] at hhead
      subst hhead
      refine ⟨?_, ?_⟩
      · have : (items ++ [h]).length % 2 = 0 := by simp [Nat.add_mod]; omega
        simp only [addLoop, this]
        norm_num
      · show LevelsInv H (addLoop H rest (interiorHash H (items.getLast?.getD []) h acc).1
          (interiorHash H (items.getLast?.getD []) h acc).2).1 (pairUp H (items ++ [h]))
        rw [pairUp_append_odd H items hpar h, interiorHash_fst]
        exact ih (pairUp H items) (intH H (items.getLast?.getD []) h) _ htail
    · rw [if_neg hpar] at hhead
      subst hhead
      refine ⟨?_, ?_⟩
      · have : (items ++ [h]).length % 2 = 1 := by simp [Nat.add_mod]; omega
        simp only [addLoop, this]
        simp
      · show LevelsInv H rest (pairUp H (items ++ [h]))
        have hpar0 : items.length % 2 = 0 := by omega
        rw [pairUp_append_even H items hpar0 h]
        exact htail

lemma addAll_levelsInv (H : Hasher) :
    ∀ (items : List Digest) (t : HTree) (prev : List Digest),
      LevelsInv H t.hashes prev → LevelsInv H (t.AddAll H items).hashes (prev ++ items) := by
  intro items
  induction items with
  | nil => intro t prev h; simpa using h
  | cons x rest ih =>
    intro t prev h
    have h2 : LevelsInv H (t.Add H x).hashes (prev ++ [x]) :=
      addLoop_levelsInv H t.hashes prev x t.pacc h
    have h3 := ih (t.Add H x) (prev ++ [x]) h2
    simpa using h3

lemma newHTree_levelsInv (H : Hasher) (items : List Digest) :
    LevelsInv H (NewHTree.AddAll H items).hashes items := by
  have h0 : LevelsInv H NewHTree.hashes [] := rfl
  simpa using addAll_levelsInv H items NewHTree [] h0

/-- From the invariant: level i holds a digest exactly when bit i of the
leaf count is set. -/
lemma levelsInv_isSome (H : Hasher) :
    ∀ (ls : List (Option Digest)) (items : List Digest), LevelsInv H ls items →
      ∀ i, (∃ d, ls[i]? = some (some d)) ↔ items.length.testBit i := by
  intro ls
  induction ls with
  | nil =>
    intro items hinv i
    have : items = [] := hinv
    subst this
    simp
  | cons o rest ih =>
    intro items hinv i
    obtain ⟨hhead, htail⟩ := hinv
    match i with
    | 0 =>
      rw [Nat.testBit_zero]
      by_cases hpar : items.length % 2 = 1
      · rw [if_pos hpar] at hhead
        subst hhead
        simp [hpar]
      · rw [if_neg hpar] at hhead
        subst hhead
        simp [hpar]
    | i + 1 =>
      rw [Nat.testBit_succ]
      have := ih (pairUp H items) htail i
      rw [pairUp_length] at this
      simpa using this

/-- From the invariant: every held digest is the balanced Merkle root of a
block of 2 ^ i consecutive leaves. -/
lemma levelsInv_content (H : Hasher) :
    ∀ (ls : List (Option Digest)) (items : List Digest), LevelsInv H ls items →
      ∀ i d, ls[i]? = some (some d) →
        ∃ start, start + 2 ^ i ≤ items.length ∧
          d = pRoot H i ((items.drop start).take (2 ^ i)) := by
  intro ls
  induction ls with
  | nil =>
    intro items hinv i d hd
    simp at hd
  | cons o rest ih =>
    intro items hinv i d hd
    obtain ⟨hhead, htail⟩ := hinv
    match i with
    | 0 =>
      simp only [List.getElem?_cons_zero, Option.some.injEq] at hd
      subst hd
      by_cases hpar : items.length % 2 = 1
      · rw [if_pos hpar] at hhead
        have hne : items ≠ [] := by
          intro hnil
          rw [hnil] at hpar
          simp at hpar
        have hlen : 1 ≤ items.length := by
          cases items with
          | nil => exact absurd rfl hne
          | cons a r => simp
        refine ⟨items.length - 1, by omega, ?_⟩
        rw [drop_length_pred items hne]
        have ht : (([items.getLast?.getD []] : List Digest).take (2 ^ 0)) =
            [items.getLast?.getD []] := by norm_num
        rw [ht]
        exact Option.some.inj hhead
      · rw [if_neg hpar] at hhead
        cases hhead
    | i + 1 =>
      simp only [List.getElem?_cons_succ] at hd
      obtain ⟨start, hstart, hcontent⟩ := ih (pairUp H items) htail i d hd
      rw [pairUp_length] at hstart
      refine ⟨2 * start, by omega, ?_⟩
      show d = pRoot H i (pairUp H ((items.drop (2 * start)).take (2 ^ (i + 1))))
      have h2 : (2 : ℕ) ^ (i + 1) = 2 * 2 ^ i := by ring
      rw [h2, pairUp_take H _ (2 ^ i), pairUp_drop H items start]
      exact hcontent

/-- Claim C3: after any number of Add calls on an HTree (before
finalisation), level i of the internal stack holds a digest exactly when
bit i of the binary representation of the number of leaves added is set,
and each held digest is the root of a fully balanced subtree over exactly
2 ^ i consecutive leaves. -/
theorem c3_level_stack_invariant (H : Hasher) (items : List Digest) (i : ℕ) :
    ((∃ d, ((NewHTree.AddAll H items).hashes)[i]? = some (some d)) ↔
        items.length.testBit i) ∧
      ∀ d, ((NewHTree.AddAll H items).hashes)[i]? = some (some d) →
        ∃ start, start + 2 ^ i ≤ items.length ∧
          d = pRoot H i ((items.drop start).take (2 ^ i)) :=
  ⟨levelsInv_isSome H _ items (newHTree_levelsInv H items) i,
   fun d hd => levelsInv_content H _ items (newHTree_levelsInv H items) i d hd⟩

/-- Witness for C3 at the identity hasher with three concrete leaves: level
1 holds the balanced root of leaves 0 and 1. -/
theorem c3_level_stack_invariant_witness :
    (((NewHTree.AddAll (fun l => l) [[1], [2], [3]]).hashes)[1]? =
        some (some [1, 1, 2]) ∧ ([[1], [2], [3]] : List Digest).length.testBit 1) ∧
      ∃ start, start + 2 ^ 1 ≤ ([[1], [2], [3]] : List Digest).length ∧
        [1, 1, 2] = pRoot (fun l => l) 1
          ((([[1], [2], [3]] : List Digest).drop start).take (2 ^ 1)) :=
  ⟨⟨by decide, by decide⟩,
   (c3_level_stack_invariant (fun l => l) [[1], [2], [3]] 1).2 [1, 1, 2] (by decide)⟩

/-- The tier trie nodes of the frontier.  nilT is the Go nil interface (an
absent child); zero is zerotier; uni is unitier; arr is arraytier, a
256-slot array; mapt is maptier, a Go map modelled as an association list;
slice is slicetier, a vector of pairs kept in ascending key order. -/
inductive GoTier where
  | nilT : GoTier
  | zero : GoTier
  | uni : Byte → GoTier → GoTier
  | arr : List GoTier → GoTier
  | mapt : List (Byte × GoTier) → GoTier
  | slice : List (Byte × GoTier) → GoTier

/-- The Go nil test on a tier interface value. -/
def GoTier.isNil : GoTier → Bool
  | nilT => true
  | _ => false

/-- First-match association lookup, as a Go map read (keys are unique). -/
def lookupT : List (Byte × GoTier) → Byte → GoTier
  | [], _ => GoTier.nilT
  | (k, v) :: rest, b => if k = b then v else lookupT rest b

/-- slicetier.get: sort.Search finds the leftmost pair whose key is ≥ b
(the keys are kept sorted); the child is returned when that key is exactly
b, nil otherwise. -/
def sliceGet : List (Byte × GoTier) → Byte → GoTier
  | [], _ => GoTier.nilT
  | (k, v) :: rest, b => if b ≤ k then (if k = b then v else GoTier.nilT) else sliceGet rest b

/-- tier.get for each variant.  A Go nil interface never receives get (the
callers test for nil first); the nilT case is unreachable junk. -/
def GoTier.get : GoTier → Byte → GoTier
  | nilT, _ => nilT
  | zero, _ => nilT
  | uni b c, x => if b = x then c else nilT
  | arr cs, x => cs.getD x.val nilT
  | mapt cs, x => lookupT cs x
  | slice cs, x => sliceGet cs x

/-- tier.empty for each variant: true for zerotier, always false for
unitier, all-slots-nil for arraytier, emptiness for maptier and
slicetier. -/
def GoTier.empty : GoTier → Bool
  | nilT => true
  | zero => true
  | uni _ _ => false
  | arr cs => cs.all GoTier.isNil
  | mapt cs => cs.isEmpty
  | slice cs => cs.isEmpty

/-- Replace the value stored under the first occurrence of key b. -/
def updateP : List (Byte × GoTier) → Byte → GoTier → List (Byte × GoTier)
  | [], _, _ => []
  | (k, v) :: rest, b, nv => if k = b then (b, nv) :: rest else (k, v) :: updateP rest b nv

/-- Whether key b occurs. -/
def containsKey : List (Byte × GoTier) → Byte → Bool
  | [], _ => false
  | (k, _) :: rest, b => k = b || containsKey rest b

/-- Go map write m[b] = v: overwrite the existing entry or add a new one. -/
def maptSet (cs : List (Byte × GoTier)) (b : Byte) (v : GoTier) : List (Byte × GoTier) :=
  if containsKey cs b then updateP cs b v else cs ++ [(b, v)]

/-- Insert a pair into a sorted vector in order.  This models the append
followed by sort.Slice in slicetier.set: the keys are distinct and sorted,
so the sorted result is unique. -/
def sliceInsert : List (Byte × GoTier) → Byte → GoTier → List (Byte × GoTier)
  | [], b, v => [(b, v)]
  | (k, w) :: rest, b, v =>
      if b < k then (b, v) :: (k, w) :: rest else (k, w) :: sliceInsert rest b v

/-- tier.set for each variant, from unitier.go, arraytier.go, maptier.go,
slicetier.go and zerotier.  The Go code never calls set on a nil interface
(every call site allocates first) and never with an empty path
(Frontier.Exclude rejects the empty string), so those cases return junk.
Three Go paths re-dispatch set at the same path (zerotier.set and an empty
slicetier.set allocate a fresh unitier carrying the first path byte, and a
unitier whose byte differs promotes itself to an arraytier); since the
fresh unitier always matches the first path byte and the promoted
arraytier takes the plain arraytier.set path, those single re-dispatch
levels are inlined here, keeping the recursion structural on the path. -/
def GoTier.set : GoTier → List Byte → GoTier → GoTier
  | nilT, _, _ => nilT
  | zero, [], _ => zero
  | zero, s0 :: rest, sub =>
      match rest with
      | [] => uni s0 sub
      | r0 :: rest2 => uni s0 ((uni r0 nilT).set (r0 :: rest2) sub)
  | uni b c, [], _ => uni b c
  | uni b c, s0 :: rest, sub =>
      if b = s0 then
        match rest with
        | [] => uni b sub
        | r0 :: rest2 =>
            if c.isNil then uni b ((uni r0 nilT).set (r0 :: rest2) sub)
            else uni b (c.set (r0 :: rest2) sub)
      else
        let cs2 := (List.replicate 256 nilT).set b.val c
        match rest with
        | [] => arr (cs2.set s0.val sub)
        | r0 :: rest2 =>
            if (cs2.getD s0.val nilT).isNil then
              arr (cs2.set s0.val ((uni r0 nilT).set (r0 :: rest2) sub))
            else
              arr (cs2.set s0.val ((cs2.getD s0.val nilT).set (r0 :: rest2) sub))
  | arr cs, [], _ => arr cs
  | arr cs, s0 :: rest, sub =>
      match rest with
      | [] => arr (cs.set s0.val sub)
      | r0 :: rest2 =>
          if (cs.getD s0.val nilT).isNil then
            arr (cs.set s0.val ((uni r0 nilT).set (r0 :: rest2) sub))
          else
            arr (cs.set s0.val ((cs.getD s0.val nilT).set (r0 :: rest2) sub))
  | mapt cs, [], _ => mapt cs
  | mapt cs, s0 :: rest, sub =>
      match rest with
      | [] => mapt (maptSet cs s0 sub)
      | r0 :: rest2 =>
          if (lookupT cs s0).isNil then
            mapt (maptSet cs s0 ((uni r0 nilT).set (r0 :: rest2) sub))
          else
            mapt (maptSet cs s0 ((lookupT cs s0).set (r0 :: rest2) sub))
  | slice cs, [], _ => slice cs
  | slice cs, s0 :: rest, sub =>
      if cs.isEmpty then
        match rest with
        | [] => uni s0 sub
        | r0 :: rest2 => uni s0 ((uni r0 nilT).set (r0 :: rest2) sub)
      else if containsKey cs s0 then
        match rest with
        | [] => slice (updateP cs s0 sub)
        | r0 :: rest2 =>
            if (sliceGet cs s0).isNil then
              slice (updateP cs s0 ((uni r0 nilT).set (r0 :: rest2) sub))
            else
              slice (updateP cs s0 ((sliceGet cs s0).set (r0 :: rest2) sub))
      else
        match rest with
        | [] => slice (sliceInsert cs s0 sub)
        | r0 :: rest2 =>
            slice (sliceInsert cs s0 ((uni r0 nilT).set (r0 :: rest2) sub))

/-- A freshly created branch for a path: the create-unitier-then-set
pattern produces a chain of unitiers ending in the terminal. -/
def chainT : List Byte → GoTier → GoTier
  | [], sub => sub
  | b :: rest, sub => GoTier.uni b (chainT rest sub)

/-- Frontier.Exclude: ignore the empty string; allocate a unitier top when
the frontier is empty; then set the path to a zerotier terminal. -/
def Frontier.Exclude (t : GoTier) (str : List Byte) : GoTier :=
  match str with
  | [] => t
  | s0 :: rest =>
      (if t.isNil then GoTier.uni s0 GoTier.nilT else t).set (s0 :: rest) GoTier.zero

/-- The recursive helper check of frontier.go: consume bytes until the
string is exhausted or a child is missing; report the consumed prefix and
whether the tier reached there is empty. -/
def check (t : GoTier) (str pre : List Byte) : List Byte × Bool :=
  match str with
  | [] => (pre, t.empty)
  | s0 :: rest =>
      if (t.get s0).isNil then (pre, t.empty)
      else check (t.get s0) rest (pre ++ [s0])

/-- Frontier.Check: an empty frontier contains the empty prefix of
everything. -/
def Frontier.Check (t : GoTier) (str : List Byte) : List Byte × Bool :=
  if t.isNil || t.empty then ([], true) else check t str []

lemma isNil_iff (t : GoTier) : t.isNil = true ↔ t = GoTier.nilT := by
  cases t <;> simp [GoTier.isNil]

lemma lookupT_mem :
    ∀ (cs : List (Byte × GoTier)) (b : Byte),
      lookupT cs b ≠ GoTier.nilT → ∃ p ∈ cs, p.2 = lookupT cs b := by
  intro cs
  induction cs with
  | nil => intro b h; exact absurd rfl h
  | cons p rest ih =>
    intro b h
    match p with
    | (k, v) =>
      by_cases hk : k = b
      · refine ⟨(k, v), by simp, ?_⟩
        simp [lookupT, hk]
      · have h2 : lookupT rest b ≠ GoTier.nilT := by
          simpa [lookupT, hk] using h
        obtain ⟨q, hq, hq2⟩ := ih b h2
        refine ⟨q, by simp [hq], ?_⟩
        simpa [lookupT, hk] using hq2

lemma sliceGet_mem :
    ∀ (cs : List (Byte × GoTier)) (b : Byte),
      sliceGet cs b ≠ GoTier.nilT → ∃ p ∈ cs, p.2 = sliceGet cs b := by
  intro cs
  induction cs with
  | nil => intro b h; exact absurd rfl h
  | cons p rest ih =>
    intro b h
    match p with
    | (k, v) =>
      by_cases hle : b ≤ k
      · by_cases hk : k = b
        · refine ⟨(k, v), by simp, ?_⟩
          simp [sliceGet, hle, hk]
        · exact absurd (by simp [sliceGet, hle, hk]) h
      · have h2 : sliceGet rest b ≠ GoTier.nilT := by
          simpa [sliceGet, hle] using h
        obtain ⟨q, hq, hq2⟩ := ih b h2
        refine ⟨q, by simp [hq], ?_⟩
        simpa [sliceGet, hle] using hq2

/-- A present child is structurally smaller than its tier (the walk
terminates). -/
lemma sizeOf_get_lt (t : GoTier) (b : Byte) (h : ¬(t.get b).isNil = true) :
    sizeOf (t.get b) < sizeOf t := by
  have hne : t.get b ≠ GoTier.nilT := fun he => h (by rw [he]; rfl)
  match t with
  | GoTier.nilT => exact absurd rfl hne
  | GoTier.zero => exact absurd rfl hne
  | GoTier.uni b2 c =>
    by_cases hb : b2 = b
    · have : (GoTier.uni b2 c).get b = c := by simp [GoTier.get, hb]
      rw [this]
      simp
    · exact absurd (by simp [GoTier.get, hb]) hne
  | GoTier.arr cs =>
    have hget : (GoTier.arr cs).get b = cs.getD b.val GoTier.nilT := rfl
    by_cases hlt : b.val < cs.length
    · rw [hget, List.getD_eq_getElem cs GoTier.nilT hlt]
      have hmem : cs[b.val] ∈ cs := List.getElem_mem hlt
      have := List.sizeOf_lt_of_mem hmem
      simp only [GoTier.arr.sizeOf_spec]
      omega
    · rw [hget, List.getD_eq_default cs GoTier.nilT (by omega)] at hne
      exact absurd rfl hne
  | GoTier.mapt cs =>
    obtain ⟨p, hp, hp2⟩ := lookupT_mem cs b hne
    have h1 := List.sizeOf_lt_of_mem hp
    have hget : (GoTier.mapt cs).get b = lookupT cs b := rfl
    rw [hget, ← hp2]
    match p, hp, h1 with
    | (k, v), hp, h1 =>
      simp only [Prod.mk.sizeOf_spec] at h1
      simp only [GoTier.mapt.sizeOf_spec]
      omega
  | GoTier.slice cs =>
    obtain ⟨p, hp, hp2⟩ := sliceGet_mem cs b hne
    have h1 := List.sizeOf_lt_of_mem hp
    have hget : (GoTier.slice cs).get b = sliceGet cs b := rfl
    rw [hget, ← hp2]
    match p, hp, h1 with
    | (k, v), hp, h1 =>
      simp only [Prod.mk.sizeOf_spec] at h1
      simp only [GoTier.slice.sizeOf_spec]
      omega

/-- walkHelper of frontier.go: for each byte in ascending order, recurse
into a present child and emit the extended path for an absent one.  The
returned list is the sequence of callback invocations. -/
def emit (t : GoTier) (pre : List Byte) : List (List Byte) :=
  (List.finRange 256).flatMap fun b =>
    if h : (t.get b).isNil then [pre ++ [b]]
    else emit (t.get b) (pre ++ [b])
  termination_by sizeOf t
  decreasing_by exact sizeOf_get_lt t b h

/-- Frontier.Walk: walkHelper starting from the top tier (which may be
nil) with an empty path. -/
def Frontier.Walk (t : GoTier) : List (List Byte) :=
  if t.isNil then [] else emit t []

/-- The tier reached by following a path of present children. -/
def nodeAt : GoTier → List Byte → Option GoTier
  | t, [] => some t
  | t, b :: rest => if (t.get b).isNil then none else nodeAt (t.get b) rest

lemma lex_append_head (pre : List Byte) (b1 b2 : Byte) (t1 t2 : List Byte) (h : b1 < b2) :
    List.Lex (· < ·) (pre ++ b1 :: t1) (pre ++ b2 :: t2) := by
  induction pre with
  | nil => exact List.Lex.rel h
  | cons a pre2 ih => exact List.Lex.cons ih

lemma lex_irrefl (a : List Byte) : ¬List.Lex (· < ·) a a := by
  intro h
  induction a with
  | nil => cases h
  | cons x r ih =>
    cases h with
    | cons h2 => exact ih h2
    | rel h2 => exact lt_irrefl x h2

lemma pairwise_flatMap_lex (keys : List Byte) (f : Byte → List (List Byte))
    (hkeys : keys.Pairwise (· < ·))
    (hin : ∀ b ∈ keys, (f b).Pairwise (List.Lex (· < ·)))
    (hcross : ∀ b1 b2, b1 < b2 → ∀ s1 ∈ f b1, ∀ s2 ∈ f b2, List.Lex (· < ·) s1 s2) :
    (keys.flatMap f).Pairwise (List.Lex (· < ·)) := by
  induction keys with
  | nil => simp
  | cons k rest ih =>
    rw [List.flatMap_cons, List.pairwise_append]
    rw [List.pairwise_cons] at hkeys
    refine ⟨hin k (by simp), ih hkeys.2 (fun b hb => hin b (by simp [hb])), ?_⟩
    intro s1 hs1 s2 hs2
    obtain ⟨b2, hb2, hsb2⟩ := List.mem_flatMap.1 hs2
    exact hcross k b2 (hkeys.1 b2 hb2) s1 hs1 s2 hsb2

/-- Everything walkHelper emits strictly extends the current path by at
least one byte. -/
lemma emit_shape (t : GoTier) (pre : List Byte) :
    ∀ s ∈ emit t pre, ∃ b tl, s = pre ++ b :: tl := by
  intro s hs
  rw [emit] at hs
  obtain ⟨b, _hb, hsb⟩ := List.mem_flatMap.1 hs
  by_cases h : (t.get b).isNil = true
  · rw [dif_pos h] at hsb
    simp only [List.mem_singleton] at hsb
    exact ⟨b, [], by simp [hsb]⟩
  · rw [dif_neg h] at hsb
    obtain ⟨b2, tl2, heq⟩ := emit_shape (t.get b) (pre ++ [b]) s hsb
    exact ⟨b, b2 :: tl2, by simp [heq]⟩
  termination_by sizeOf t
  decreasing_by exact sizeOf_get_lt t b h

/-- walkHelper emits in strictly ascending lexicographic order. -/
lemma emit_pairwise (t : GoTier) (pre : List Byte) :
    (emit t pre).Pairwise (List.Lex (· < ·)) := by
  rw [emit]
  apply pairwise_flatMap_lex
  · exact List.pairwise_lt_finRange 256
  · intro b _
    by_cases h : (t.get b).isNil = true
    · rw [dif_pos h]
      simp
    · rw [dif_neg h]
      exact emit_pairwise (t.get b) (pre ++ [b])
  · intro b1 b2 hlt s1 hs1 s2 hs2
    have shape : ∀ b : Byte, ∀ s ∈ (if _h : (t.get b).isNil = true then [pre ++ [b]]
        else emit (t.get b) (pre ++ [b])), ∃ tl, s = pre ++ b :: tl := by
      intro b s hs
      by_cases h : (t.get b).isNil = true
      · rw [dif_pos h] at hs
        simp only [List.mem_singleton] at hs
        exact ⟨[], by simp [hs]⟩
      · rw [dif_neg h] at hs
        obtain ⟨b2, tl2, heq⟩ := emit_shape (t.get b) (pre ++ [b]) s hs
        exact ⟨b2 :: tl2, by simp [heq]⟩
    obtain ⟨tl1, heq1⟩ := shape b1 s1 hs1
    obtain ⟨tl2, heq2⟩ := shape b2 s2 hs2
    rw [heq1, heq2]
    exact lex_append_head pre b1 b2 tl1 tl2 hlt
  termination_by sizeOf t
  decreasing_by exact sizeOf_get_lt t b h

lemma walk_pairwise_lex (t : GoTier) :
    (Frontier.Walk t).Pairwise (List.Lex (· < ·)) := by
  rw [Frontier.Walk]
  by_cases h : t.isNil = true
  · simp [h]
  · rw [if_neg h]
    exact emit_pairwise t []

/-- Claim C6: for every frontier, the sequence of strings passed to the
callback during a single Walk is strictly ascending in lexicographic byte
order. -/
theorem c6_walk_monotonicity (t : GoTier) :
    (Frontier.Walk t).Pairwise (List.Lex (· < ·)) :=
  walk_pairwise_lex t

/-- A path with a missing final edge is emitted by the walk. -/
lemma mem_emit_intro :
    ∀ (q : List Byte) (t : GoTier) (pre : List Byte) (b : Byte) (nd : GoTier),
      nodeAt t q = some nd → (nd.get b).isNil = true → pre ++ q ++ [b] ∈ emit t pre := by
  intro q
  induction q with
  | nil =>
    intro t pre b nd hnd hnil
    have ht : nd = t := by
      have h2 : (some t : Option GoTier) = some nd := hnd
      exact (Option.some.inj h2).symm
    subst ht
    rw [emit]
    refine List.mem_flatMap.2 ⟨b, List.mem_finRange b, ?_⟩
    rw [dif_pos hnil]
    simp
  | cons q0 q2 ih =>
    intro t pre b nd hnd hnil
    rw [nodeAt] at hnd
    by_cases h0 : (t.get q0).isNil = true
    · rw [if_pos h0] at hnd
      cases hnd
    · rw [if_neg h0] at hnd
      have hmem := ih (t.get q0) (pre ++ [q0]) b nd hnd hnil
      rw [emit]
      refine List.mem_flatMap.2 ⟨q0, List.mem_finRange q0, ?_⟩
      rw [dif_neg h0]
      have : pre ++ (q0 :: q2) ++ [b] = (pre ++ [q0]) ++ q2 ++ [b] := by simp
      rw [this]
      exact hmem

/-- Everything the walk emits is a stored path with a missing final edge. -/
lemma mem_emit_elim (t : GoTier) (pre : List Byte) :
    ∀ s ∈ emit t pre, ∃ q b nd, s = pre ++ q ++ [b] ∧ nodeAt t q = some nd ∧
      (nd.get b).isNil = true := by
  intro s hs
  rw [emit] at hs
  obtain ⟨b, _hb, hsb⟩ := List.mem_flatMap.1 hs
  by_cases h : (t.get b).isNil = true
  · rw [dif_pos h] at hsb
    simp only [List.mem_singleton] at hsb
    exact ⟨[], b, t, by simp [hsb], rfl, h⟩
  · rw [dif_neg h] at hsb
    obtain ⟨q2, b2, nd, heq, hnd, hnil⟩ := mem_emit_elim (t.get b) (pre ++ [b]) s hsb
    refine ⟨b :: q2, b2, nd, by simp [heq], ?_, hnil⟩
    rw [nodeAt, if_neg h]
    exact hnd
  termination_by sizeOf t
  decreasing_by exact sizeOf_get_lt t b h

/-- The specification of a single walk emission: the string is nonempty,
its initial segment reaches a stored tier, and that tier has no child under
the final byte. -/
def walkSpecB (t : GoTier) (s : List Byte) : Bool :=
  !t.isNil &&
    match s.getLast? with
    | none => false
    | some b =>
        match nodeAt t s.dropLast with
        | none => false
        | some nd => (nd.get b).isNil

lemma walk_nodup (t : GoTier) : (Frontier.Walk t).Nodup := by
  have hpw := walk_pairwise_lex t
  exact hpw.imp fun {a b} hlex => by
    intro heq
    subst heq
    exact lex_irrefl a hlex

lemma walk_mem_iff (t : GoTier) (s : List Byte) :
    s ∈ Frontier.Walk t ↔ walkSpecB t s = true := by
  rw [Frontier.Walk]
  by_cases hnil : t.isNil = true
  · rw [if_pos hnil]
    simp [walkSpecB, hnil]
  · rw [if_neg hnil]
    constructor
    · intro hs
      obtain ⟨q, b, nd, heq, hnd, hb⟩ := mem_emit_elim t [] s hs
      simp only [List.nil_append] at heq
      subst heq
      rw [walkSpecB, List.getLast?_concat, List.dropLast_concat, hnd]
      simp [hnil, hb]
    · intro hs
      rw [walkSpecB] at hs
      match hlast : s.getLast? with
      | none => rw [hlast] at hs; simp at hs
      | some b =>
        rw [hlast] at hs
        match hnd : nodeAt t s.dropLast with
        | none => rw [hnd] at hs; simp at hs
        | some nd =>
          rw [hnd] at hs
          simp only [Bool.and_eq_true] at hs
          have hmem := mem_emit_intro s.dropLast t [] b nd hnd hs.2
          simp only [List.nil_append] at hmem
          rw [List.dropLast_append_getLast? b hlast] at hmem
          exact hmem

/-- Counterexample to claim C4 at a concrete frontier: after Exclude([0x00])
the Zero terminal is stored at path [0x00], yet Walk never calls the
callback with [0x00] (it calls it with the 256 one-byte extensions of that
path instead, and with every other one-byte string). -/
theorem c4_counterexample :
    nodeAt (Frontier.Exclude GoTier.nilT [0]) [0] = some GoTier.zero ∧
      ¬([0] ∈ Frontier.Walk (Frontier.Exclude GoTier.nilT [0])) := by
  refine ⟨rfl, ?_⟩
  rw [walk_mem_iff]
  decide

/-- Claim C4, amended: Walk calls the callback exactly once with the string
q ++ [b] for every reachable tier at path q and byte b with no child under
b (and with nothing else); in particular a Zero terminal at path p
contributes its 256 one-byte extensions p ++ [b], not p itself. -/
lemma count_inst_bridge (l : List (List Byte)) (s : List Byte) :
    l.count s = @List.count (List Byte) instBEqOfDecidableEq s l := by
  induction l with
  | nil => rfl
  | cons x rest ih =>
    rw [List.count_cons, @List.count_cons (List Byte) instBEqOfDecidableEq, ih]
    have h1 : (x == s) = decide (x = s) := by
      by_cases h : x = s
      · simp [h]
      · simp [h]
    have h2 : (@BEq.beq (List Byte) instBEqOfDecidableEq x s) = decide (x = s) := rfl
    rw [h1, h2]

theorem c4_amended (t : GoTier) (s : List Byte) :
    (Frontier.Walk t).count s = if walkSpecB t s = true then 1 else 0 := by
  rw [count_inst_bridge]
  by_cases hmem : s ∈ Frontier.Walk t
  · rw [if_pos ((walk_mem_iff t s).1 hmem)]
    apply List.count_eq_one_of_mem (walk_nodup t) hmem
  · rw [if_neg fun hspec => hmem ((walk_mem_iff t s).2 hspec), ← count_inst_bridge]
    apply List.count_eq_zero_of_not_mem hmem

/-- Strictly ascending keys of a slicetier. -/
def sortedKeys : List (Byte × GoTier) → Bool
  | [] => true
  | [_] => true
  | (k1, v1) :: (k2, v2) :: rest => decide (k1 < k2) && sortedKeys ((k2, v2) :: rest)

mutual

/-- Structural well-formedness of a tier: an arraytier has exactly 256
slots and a slicetier's keys are strictly ascending, recursively.  These
are the representation invariants Go maintains by construction (arraytiers
are fixed-size arrays; slicetier.set keeps its vector sorted). -/
def wfS : GoTier → Bool
  | GoTier.nilT => true
  | GoTier.zero => true
  | GoTier.uni _ c => wfS c
  | GoTier.arr cs => decide (cs.length = 256) && wfSL cs
  | GoTier.mapt cs => wfSP cs
  | GoTier.slice cs => sortedKeys cs && wfSP cs

def wfSL : List GoTier → Bool
  | [] => true
  | t :: rest => wfS t && wfSL rest

def wfSP : List (Byte × GoTier) → Bool
  | [] => true
  | (_, v) :: rest => wfS v && wfSP rest

end

mutual

/-- Properness of a reachable tier: interior nodes demonstrably hold at
least one child, and stored children are never the nil interface.  Go
maintains this: every created node is immediately given a child, children
are only ever overwritten with non-nil tiers, and nothing is deleted. -/
def properT : GoTier → Bool
  | GoTier.nilT => true
  | GoTier.zero => true
  | GoTier.uni _ c => !c.isNil && properT c
  | GoTier.arr cs => cs.any (fun x => !x.isNil) && properTL cs
  | GoTier.mapt cs => !cs.isEmpty && properTP cs
  | GoTier.slice cs => !cs.isEmpty && properTP cs

def properTL : List GoTier → Bool
  | [] => true
  | t :: rest => properT t && properTL rest

def properTP : List (Byte × GoTier) → Bool
  | [] => true
  | (_, v) :: rest => !v.isNil && properT v && properTP rest

end

/-- Whether a tier is the bare zerotier. -/
def isZeroT : GoTier → Bool
  | GoTier.zero => true
  | _ => false

/-- The well-formedness of a frontier top used in the claims: structurally
well-formed, proper, and not a bare zerotier (the top is nil or the result
of set, which never returns a bare zerotier). -/
def FrontierWF (t : GoTier) : Bool :=
  wfS t && properT t && !isZeroT t

lemma wfSL_getD (cs : List GoTier) (i : ℕ) (h : wfSL cs = true) :
    wfS (cs.getD i GoTier.nilT) = true := by
  induction cs generalizing i with
  | nil => rfl
  | cons x rest ih =>
    rw [wfSL, Bool.and_eq_true] at h
    match i with
    | 0 => exact h.1
    | j + 1 =>
      have : (x :: rest).getD (j + 1) GoTier.nilT = rest.getD j GoTier.nilT := by
        simp [List.getD]
      rw [this]
      exact ih j h.2

lemma wfSP_lookupT (cs : List (Byte × GoTier)) (b : Byte) (h : wfSP cs = true) :
    wfS (lookupT cs b) = true := by
  induction cs with
  | nil => rfl
  | cons p rest ih =>
    match p with
    | (k, v) =>
      rw [wfSP, Bool.and_eq_true] at h
      rw [lookupT]
      by_cases hk : k = b
      · rw [if_pos hk]; exact h.1
      · rw [if_neg hk]; exact ih h.2

lemma wfSP_sliceGet (cs : List (Byte × GoTier)) (b : Byte) (h : wfSP cs = true) :
    wfS (sliceGet cs b) = true := by
  induction cs with
  | nil => rfl
  | cons p rest ih =>
    match p with
    | (k, v) =>
      rw [wfSP, Bool.and_eq_true] at h
      rw [sliceGet]
      by_cases hle : b ≤ k
      · rw [if_pos hle]
        by_cases hk : k = b
        · rw [if_pos hk]; exact h.1
        · rw [if_neg hk]; rfl
      · rw [if_neg hle]; exact ih h.2

lemma wfS_get (t : GoTier) (b : Byte) (h : wfS t = true) : wfS (t.get b) = true := by
  match t with
  | GoTier.nilT => rfl
  | GoTier.zero => rfl
  | GoTier.uni b2 c =>
    rw [GoTier.get]
    by_cases hb : b2 = b
    · rw [if_pos hb]; exact h
    · rw [if_neg hb]; rfl
  | GoTier.arr cs =>
    rw [wfS, Bool.and_eq_true] at h
    exact wfSL_getD cs b.val h.2
  | GoTier.mapt cs => exact wfSP_lookupT cs b h
  | GoTier.slice cs =>
    rw [wfS, Bool.and_eq_true] at h
    exact wfSP_sliceGet cs b h.2

lemma properTL_getD (cs : List GoTier) (i : ℕ) (h : properTL cs = true) :
    properT (cs.getD i GoTier.nilT) = true := by
  induction cs generalizing i with
  | nil => rfl
  | cons x rest ih =>
    rw [properTL, Bool.and_eq_true] at h
    match i with
    | 0 => exact h.1
    | j + 1 =>
      have : (x :: rest).getD (j + 1) GoTier.nilT = rest.getD j GoTier.nilT := by
        simp [List.getD]
      rw [this]
      exact ih j h.2

lemma properTP_lookupT (cs : List (Byte × GoTier)) (b : Byte) (h : properTP cs = true) :
    properT (lookupT cs b) = true := by
  induction cs with
  | nil => rfl
  | cons p rest ih =>
    match p with
    | (k, v) =>
      rw [properTP, Bool.and_eq_true, Bool.and_eq_true] at h
      rw [lookupT]
      by_cases hk : k = b
      · rw [if_pos hk]; exact h.1.2
      · rw [if_neg hk]; exact ih h.2

lemma properTP_sliceGet (cs : List (Byte × GoTier)) (b : Byte) (h : properTP cs = true) :
    properT (sliceGet cs b) = true := by
  induction cs with
  | nil => rfl
  | cons p rest ih =>
    match p with
    | (k, v) =>
      rw [properTP, Bool.and_eq_true, Bool.and_eq_true] at h
      rw [sliceGet]
      by_cases hle : b ≤ k
      · rw [if_pos hle]
        by_cases hk : k = b
        · rw [if_pos hk]; exact h.1.2
        · rw [if_neg hk]; rfl
      · rw [if_neg hle]; exact ih h.2

lemma properT_get (t : GoTier) (b : Byte) (h : properT t = true) :
    properT (t.get b) = true := by
  match t with
  | GoTier.nilT => rfl
  | GoTier.zero => rfl
  | GoTier.uni b2 c =>
    rw [properT, Bool.and_eq_true] at h
    rw [GoTier.get]
    by_cases hb : b2 = b
    · rw [if_pos hb]; exact h.2
    · rw [if_neg hb]; rfl
  | GoTier.arr cs =>
    rw [properT, Bool.and_eq_true] at h
    exact properTL_getD cs b.val h.2
  | GoTier.mapt cs =>
    rw [properT, Bool.and_eq_true] at h
    exact properTP_lookupT cs b h.2
  | GoTier.slice cs =>
    rw [properT, Bool.and_eq_true] at h
    exact properTP_sliceGet cs b h.2

/-- A tier with a present child does not report empty. -/
lemma empty_false_of_get (t : GoTier) (b : Byte) (h : ¬(t.get b).isNil = true) :
    t.empty = false := by
  match t with
  | GoTier.nilT => exact absurd rfl h
  | GoTier.zero => exact absurd rfl h
  | GoTier.uni b2 c => rfl
  | GoTier.arr cs =>
    rw [GoTier.empty]
    by_cases hall : cs.all GoTier.isNil = true
    · exfalso
      apply h
      rw [GoTier.get]
      by_cases hlt : b.val < cs.length
      · rw [List.getD_eq_getElem cs GoTier.nilT hlt]
        exact List.all_eq_true.1 hall _ (List.getElem_mem hlt)
      · rw [List.getD_eq_default cs GoTier.nilT (by omega)]
        rfl
    · exact Bool.not_eq_true _ ▸ (Bool.eq_false_iff.2 hall)
  | GoTier.mapt cs =>
    match cs with
    | [] => exact absurd rfl h
    | p :: rest => rfl
  | GoTier.slice cs =>
    match cs with
    | [] => exact absurd rfl h
    | p :: rest => rfl

/-- A proper tier that is neither nil nor a zerotier is not empty. -/
lemma proper_not_empty (t : GoTier) (h : properT t = true)
    (h1 : t ≠ GoTier.nilT) (h2 : t ≠ GoTier.zero) : t.empty = false := by
  match t with
  | GoTier.nilT => exact absurd rfl h1
  | GoTier.zero => exact absurd rfl h2
  | GoTier.uni b2 c => rfl
  | GoTier.arr cs =>
    rw [properT, Bool.and_eq_true] at h
    rw [GoTier.empty]
    obtain ⟨x, hx, hnx⟩ := List.any_eq_true.1 h.1
    refine Bool.eq_false_iff.2 fun hall => ?_
    have := List.all_eq_true.1 hall x hx
    rw [this] at hnx
    exact Bool.false_ne_true hnx
  | GoTier.mapt cs =>
    rw [properT, Bool.and_eq_true] at h
    match cs, h with
    | p :: rest, _ => rfl
    | [], h => exact absurd h.1 (by decide)
  | GoTier.slice cs =>
    rw [properT, Bool.and_eq_true] at h
    match cs, h with
    | p :: rest, _ => rfl
    | [], h => exact absurd h.1 (by decide)

lemma getD_set_self (cs : List GoTier) (i : ℕ) (v : GoTier) (h : i < cs.length) :
    (cs.set i v).getD i GoTier.nilT = v := by
  rw [List.getD_eq_getElem _ _ (by simpa using h)]
  exact List.getElem_set_self _

lemma getD_set_other (cs : List GoTier) (i j : ℕ) (v : GoTier) (hne : i ≠ j) :
    (cs.set i v).getD j GoTier.nilT = cs.getD j GoTier.nilT := by
  by_cases hj : j < cs.length
  · rw [List.getD_eq_getElem _ _ (by simpa using hj), List.getD_eq_getElem _ _ hj]
    exact List.getElem_set_ne hne _
  · rw [List.getD_eq_default _ _ (by rw [List.length_set]; omega),
      List.getD_eq_default _ _ (by omega)]

lemma getD_replicate_set_self (c : GoTier) (i : ℕ) (h : i < 256) :
    ((List.replicate 256 GoTier.nilT).set i c).getD i GoTier.nilT = c :=
  getD_set_self _ i c (by rw [List.length_replicate]; omega)

lemma getD_replicate_set_other (c : GoTier) (i j : ℕ) (hne : i ≠ j) :
    ((List.replicate 256 GoTier.nilT).set i c).getD j GoTier.nilT = GoTier.nilT := by
  rw [getD_set_other _ _ _ _ hne]
  by_cases hj : j < 256
  · rw [List.getD_eq_getElem _ _ (by rw [List.length_replicate]; omega)]
    exact List.getElem_replicate _ _
  · rw [List.getD_eq_default _ _ (by rw [List.length_replicate]; omega)]

lemma containsKey_iff (cs : List (Byte × GoTier)) (b : Byte) :
    containsKey cs b = true ↔ ∃ p ∈ cs, p.1 = b := by
  induction cs with
  | nil => simp [containsKey]
  | cons p rest ih =>
    match p with
    | (k, v) =>
      rw [containsKey, Bool.or_eq_true, decide_eq_true_iff]
      constructor
      · intro h
        rcases h with h | h
        · exact ⟨(k, v), by simp, h⟩
        · obtain ⟨q, hq, hq2⟩ := ih.1 h
          exact ⟨q, by simp [hq], hq2⟩
      · intro ⟨q, hq, hq2⟩
        rcases List.mem_cons.1 hq with hh | hh
        · subst hh; exact Or.inl hq2
        · exact Or.inr (ih.2 ⟨q, hh, hq2⟩)

lemma lookupT_updateP_self (cs : List (Byte × GoTier)) (b : Byte) (v : GoTier)
    (h : containsKey cs b = true) : lookupT (updateP cs b v) b = v := by
  induction cs with
  | nil => simp [containsKey] at h
  | cons p rest ih =>
    match p with
    | (k, w) =>
      rw [updateP]
      by_cases hk : k = b
      · rw [if_pos hk, lookupT, if_pos rfl]
      · rw [if_neg hk, lookupT, if_neg hk]
        rw [containsKey, Bool.or_eq_true, decide_eq_true_iff] at h
        exact ih (h.resolve_left hk)

lemma lookupT_append_self (cs : List (Byte × GoTier)) (b : Byte) (v : GoTier)
    (h : containsKey cs b = false) : lookupT (cs ++ [(b, v)]) b = v := by
  induction cs with
  | nil => simp [lookupT]
  | cons p rest ih =>
    match p with
    | (k, w) =>
      rw [containsKey, Bool.or_eq_false_iff] at h
      rw [List.cons_append, lookupT, if_neg (by simpa using h.1)]
      exact ih h.2

lemma lookupT_maptSet_self (cs : List (Byte × GoTier)) (b : Byte) (v : GoTier) :
    lookupT (maptSet cs b v) b = v := by
  rw [maptSet]
  by_cases h : containsKey cs b = true
  · rw [if_pos h]
    exact lookupT_updateP_self cs b v h
  · rw [if_neg h]
    exact lookupT_append_self cs b v (Bool.not_eq_true _ ▸ Bool.eq_false_iff.2 h)

lemma lookupT_updateP_other (cs : List (Byte × GoTier)) (b b2 : Byte) (v : GoTier)
    (hne : b2 ≠ b) : lookupT (updateP cs b v) b2 = lookupT cs b2 := by
  induction cs with
  | nil => rfl
  | cons p rest ih =>
    match p with
    | (k, w) =>
      rw [updateP]
      by_cases hk : k = b
      · subst hk
        rw [if_pos rfl, lookupT, lookupT, if_neg (fun hh => hne hh.symm),
          if_neg (fun hh => hne hh.symm)]
      · rw [if_neg hk, lookupT, lookupT]
        by_cases hk2 : k = b2
        · rw [if_pos hk2, if_pos hk2]
        · rw [if_neg hk2, if_neg hk2]
          exact ih

lemma lookupT_append_other (cs : List (Byte × GoTier)) (b b2 : Byte) (v : GoTier)
    (hne : b2 ≠ b) : lookupT (cs ++ [(b, v)]) b2 = lookupT cs b2 := by
  induction cs with
  | nil =>
    rw [List.nil_append]
    show (if b = b2 then v else lookupT [] b2) = lookupT [] b2
    rw [if_neg fun hh => hne hh.symm]
  | cons p rest ih =>
    match p with
    | (k, w) =>
      rw [List.cons_append, lookupT, lookupT]
      by_cases hk : k = b2
      · rw [if_pos hk, if_pos hk]
      · rw [if_neg hk, if_neg hk]
        exact ih

lemma lookupT_maptSet_other (cs : List (Byte × GoTier)) (b b2 : Byte) (v : GoTier)
    (hne : b2 ≠ b) : lookupT (maptSet cs b v) b2 = lookupT cs b2 := by
  rw [maptSet]
  by_cases h : containsKey cs b = true
  · rw [if_pos h]
    exact lookupT_updateP_other cs b b2 v hne
  · rw [if_neg h]
    exact lookupT_append_other cs b b2 v hne

lemma sliceGet_not_contains (cs : List (Byte × GoTier)) (b : Byte)
    (h : containsKey cs b = false) : sliceGet cs b = GoTier.nilT := by
  induction cs with
  | nil => rfl
  | cons p rest ih =>
    match p with
    | (k, w) =>
      rw [containsKey, Bool.or_eq_false_iff] at h
      rw [sliceGet]
      by_cases hle : b ≤ k
      · rw [if_pos hle, if_neg (by simpa using h.1)]
      · rw [if_neg hle]
        exact ih h.2

lemma sortedKeys_tail (p : Byte × GoTier) (rest : List (Byte × GoTier))
    (h : sortedKeys (p :: rest) = true) : sortedKeys rest = true := by
  match p, rest with
  | _, [] => rfl
  | (k1, v1), (k2, v2) :: rest2 =>
    rw [sortedKeys, Bool.and_eq_true] at h
    exact h.2

lemma sortedKeys_head_lt (k : Byte) (v : Byte × GoTier → Prop) : True := trivial

lemma sortedKeys_head_lt_mem (k : Byte) (w : GoTier) (rest : List (Byte × GoTier))
    (h : sortedKeys ((k, w) :: rest) = true) :
    ∀ p ∈ rest, k < p.1 := by
  induction rest generalizing k w with
  | nil => intro p hp; simp at hp
  | cons q rest2 ih =>
    match q with
    | (k2, w2) =>
      rw [sortedKeys, Bool.and_eq_true, decide_eq_true_iff] at h
      intro p hp
      rcases List.mem_cons.1 hp with hh | hh
      · subst hh; exact h.1
      · exact lt_trans h.1 (ih k2 w2 h.2 p hh)

lemma sliceGet_updateP_self (cs : List (Byte × GoTier)) (b : Byte) (v : GoTier)
    (hs : sortedKeys cs = true) (h : containsKey cs b = true) :
    sliceGet (updateP cs b v) b = v := by
  induction cs with
  | nil => simp [containsKey] at h
  | cons p rest ih =>
    match p with
    | (k, w) =>
      rw [updateP]
      by_cases hk : k = b
      · rw [if_pos hk, sliceGet, if_pos le_rfl, if_pos rfl]
      · rw [containsKey, Bool.or_eq_true, decide_eq_true_iff] at h
        have hcr : containsKey rest b = true := h.resolve_left hk
        have hklt : k < b := by
          obtain ⟨q, hq, hq2⟩ := (containsKey_iff rest b).1 hcr
          have h3 := sortedKeys_head_lt_mem k w rest hs q hq
          rw [hq2] at h3
          exact h3
        rw [if_neg hk, sliceGet, if_neg (not_le.2 hklt)]
        exact ih (sortedKeys_tail _ _ hs) hcr

lemma sliceGet_updateP_other (cs : List (Byte × GoTier)) (b b2 : Byte) (v : GoTier)
    (hne : b2 ≠ b) : sliceGet (updateP cs b v) b2 = sliceGet cs b2 := by
  induction cs with
  | nil => rfl
  | cons p rest ih =>
    match p with
    | (k, w) =>
      rw [updateP]
      by_cases hk : k = b
      · subst hk
        rw [if_pos rfl, sliceGet, sliceGet]
        by_cases hle : b2 ≤ k
        · rw [if_pos hle, if_pos hle, if_neg fun hh => hne hh.symm,
            if_neg fun hh => hne hh.symm]
        · rw [if_neg hle, if_neg hle]
      · rw [if_neg hk, sliceGet, sliceGet]
        by_cases hle : b2 ≤ k
        · rw [if_pos hle, if_pos hle]
        · rw [if_neg hle, if_neg hle]
          exact ih

lemma sliceGet_sliceInsert_self (cs : List (Byte × GoTier)) (b : Byte) (v : GoTier)
    (h : containsKey cs b = false) : sliceGet (sliceInsert cs b v) b = v := by
  induction cs with
  | nil => simp [sliceInsert, sliceGet]
  | cons p rest ih =>
    match p with
    | (k, w) =>
      rw [containsKey, Bool.or_eq_false_iff] at h
      have hkb : k ≠ b := by simpa using h.1
      rw [sliceInsert]
      by_cases hlt : b < k
      · rw [if_pos hlt, sliceGet, if_pos le_rfl, if_pos rfl]
      · rw [if_neg hlt, sliceGet,
          if_neg fun hle => hlt (lt_of_le_of_ne hle fun he => hkb he.symm)]
        exact ih h.2

lemma sliceGet_sliceInsert_other (cs : List (Byte × GoTier)) (b b2 : Byte) (v : GoTier)
    (hne : b2 ≠ b) : sliceGet (sliceInsert cs b v) b2 = sliceGet cs b2 := by
  induction cs with
  | nil =>
    show (if b2 ≤ b then (if b = b2 then v else GoTier.nilT) else sliceGet [] b2) =
      sliceGet [] b2
    by_cases hle : b2 ≤ b
    · rw [if_pos hle, if_neg fun hh => hne hh.symm]
      rfl
    · rw [if_neg hle]
  | cons p rest ih =>
    match p with
    | (k, w) =>
      rw [sliceInsert]
      by_cases hlt : b < k
      · rw [if_pos hlt, sliceGet]
        by_cases hle : b2 ≤ b
        · rw [if_pos hle, if_neg fun hh => hne hh.symm, sliceGet,
            if_pos (le_trans hle hlt.le), if_neg (lt_of_le_of_lt hle hlt).ne']
        · rw [if_neg hle, sliceGet]
      · rw [if_neg hlt, sliceGet, sliceGet]
        by_cases hle : b2 ≤ k
        · rw [if_pos hle, if_pos hle]
        · rw [if_neg hle, if_neg hle]
          exact ih

lemma set_zero_last (s0 : Byte) (sub : GoTier) :
    GoTier.zero.set [s0] sub = GoTier.uni s0 sub := rfl

lemma set_zero_deep (s0 r0 : Byte) (rest2 : List Byte) (sub : GoTier) :
    GoTier.zero.set (s0 :: r0 :: rest2) sub =
      GoTier.uni s0 ((GoTier.uni r0 GoTier.nilT).set (r0 :: rest2) sub) := rfl

lemma set_uni_last (b : Byte) (c : GoTier) (s0 : Byte) (sub : GoTier) :
    (GoTier.uni b c).set [s0] sub =
      if b = s0 then GoTier.uni b sub
      else GoTier.arr (((List.replicate 256 GoTier.nilT).set b.val c).set s0.val sub) :=
  rfl

lemma set_uni_deep (b : Byte) (c : GoTier) (s0 r0 : Byte) (rest2 : List Byte)
    (sub : GoTier) :
    (GoTier.uni b c).set (s0 :: r0 :: rest2) sub =
      if b = s0 then
        (if c.isNil = true then
          GoTier.uni b ((GoTier.uni r0 GoTier.nilT).set (r0 :: rest2) sub)
        else GoTier.uni b (c.set (r0 :: rest2) sub))
      else
        (if (((List.replicate 256 GoTier.nilT).set b.val c).getD s0.val
            GoTier.nilT).isNil = true then
          GoTier.arr (((List.replicate 256 GoTier.nilT).set b.val c).set s0.val
            ((GoTier.uni r0 GoTier.nilT).set (r0 :: rest2) sub))
        else
          GoTier.arr (((List.replicate 256 GoTier.nilT).set b.val c).set s0.val
            ((((List.replicate 256 GoTier.nilT).set b.val c).getD s0.val
              GoTier.nilT).set (r0 :: rest2) sub))) := rfl

lemma set_arr_last (cs : List GoTier) (s0 : Byte) (sub : GoTier) :
    (GoTier.arr cs).set [s0] sub = GoTier.arr (cs.set s0.val sub) := rfl

lemma set_arr_deep (cs : List GoTier) (s0 r0 : Byte) (rest2 : List Byte)
    (sub : GoTier) :
    (GoTier.arr cs).set (s0 :: r0 :: rest2) sub =
      if (cs.getD s0.val GoTier.nilT).isNil = true then
        GoTier.arr (cs.set s0.val ((GoTier.uni r0 GoTier.nilT).set (r0 :: rest2) sub))
      else
        GoTier.arr (cs.set s0.val ((cs.getD s0.val GoTier.nilT).set (r0 :: rest2) sub)) :=
  rfl

lemma set_mapt_last (cs : List (Byte × GoTier)) (s0 : Byte) (sub : GoTier) :
    (GoTier.mapt cs).set [s0] sub = GoTier.mapt (maptSet cs s0 sub) := rfl

lemma set_mapt_deep (cs : List (Byte × GoTier)) (s0 r0 : Byte) (rest2 : List Byte)
    (sub : GoTier) :
    (GoTier.mapt cs).set (s0 :: r0 :: rest2) sub =
      if (lookupT cs s0).isNil = true then
        GoTier.mapt (maptSet cs s0 ((GoTier.uni r0 GoTier.nilT).set (r0 :: rest2) sub))
      else
        GoTier.mapt (maptSet cs s0 ((lookupT cs s0).set (r0 :: rest2) sub)) := rfl

lemma set_slice_last (cs : List (Byte × GoTier)) (s0 : Byte) (sub : GoTier) :
    (GoTier.slice cs).set [s0] sub =
      if cs.isEmpty = true then GoTier.uni s0 sub
      else if containsKey cs s0 = true then GoTier.slice (updateP cs s0 sub)
      else GoTier.slice (sliceInsert cs s0 sub) := rfl

lemma set_slice_deep (cs : List (Byte × GoTier)) (s0 r0 : Byte) (rest2 : List Byte)
    (sub : GoTier) :
    (GoTier.slice cs).set (s0 :: r0 :: rest2) sub =
      if cs.isEmpty = true then
        GoTier.uni s0 ((GoTier.uni r0 GoTier.nilT).set (r0 :: rest2) sub)
      else if containsKey cs s0 = true then
        (if (sliceGet cs s0).isNil = true then
          GoTier.slice (updateP cs s0 ((GoTier.uni r0 GoTier.nilT).set (r0 :: rest2) sub))
        else
          GoTier.slice (updateP cs s0 ((sliceGet cs s0).set (r0 :: rest2) sub)))
      else
        GoTier.slice (sliceInsert cs s0 ((GoTier.uni r0 GoTier.nilT).set (r0 :: rest2)
          sub)) := rfl

lemma get_uni_self (b : Byte) (c : GoTier) : (GoTier.uni b c).get b = c := by
  rw [GoTier.get, if_pos rfl]

lemma get_uni_other (b : Byte) (c : GoTier) (b2 : Byte) (h : b2 ≠ b) :
    (GoTier.uni b c).get b2 = GoTier.nilT := by
  rw [GoTier.get, if_neg fun hh => h hh.symm]

lemma nilT_isNil : GoTier.nilT.isNil = true := rfl

lemma emptyPairs_isEmpty : (([] : List (Byte × GoTier))).isEmpty = true := rfl

lemma fresh_set_chain :
    ∀ (rest2 : List Byte) (r0 : Byte) (sub : GoTier),
      (GoTier.uni r0 GoTier.nilT).set (r0 :: rest2) sub = chainT (r0 :: rest2) sub := by
  intro rest2
  induction rest2 with
  | nil =>
    intro r0 sub
    rw [set_uni_last, if_pos rfl]
    rfl
  | cons r1 rest3 ih =>
    intro r0 sub
    rw [set_uni_deep, if_pos rfl, if_pos nilT_isNil, ih r1 sub]
    rfl

lemma chainT_ne_nil (rest : List Byte) (sub : GoTier) (h : sub ≠ GoTier.nilT) :
    chainT rest sub ≠ GoTier.nilT := by
  match rest with
  | [] => exact h
  | b :: r => simp [chainT]

/-- Whether a tier is one of the four interior-capable variants that set
returns. -/
def isInterior : GoTier → Bool
  | GoTier.uni _ _ => true
  | GoTier.arr _ => true
  | GoTier.mapt _ => true
  | GoTier.slice _ => true
  | _ => false

lemma set_isInterior (t : GoTier) (s0 : Byte) (rest : List Byte) (sub : GoTier)
    (hne : t ≠ GoTier.nilT) : isInterior (t.set (s0 :: rest) sub) = true := by
  match t, rest with
  | GoTier.nilT, _ => exact absurd rfl hne
  | GoTier.zero, [] => rw [set_zero_last]; rfl
  | GoTier.zero, r0 :: rest2 => rw [set_zero_deep]; rfl
  | GoTier.uni b c, [] =>
    rw [set_uni_last]
    by_cases hb : b = s0
    · rw [if_pos hb]; rfl
    · rw [if_neg hb]; rfl
  | GoTier.uni b c, r0 :: rest2 =>
    rw [set_uni_deep]
    by_cases hb : b = s0
    · rw [if_pos hb]
      by_cases hc : c.isNil = true
      · rw [if_pos hc]; rfl
      · rw [if_neg hc]; rfl
    · rw [if_neg hb]
      by_cases hc : (((List.replicate 256 GoTier.nilT).set b.val c).getD s0.val
          GoTier.nilT).isNil = true
      · rw [if_pos hc]; rfl
      · rw [if_neg hc]; rfl
  | GoTier.arr cs, [] => rw [set_arr_last]; rfl
  | GoTier.arr cs, r0 :: rest2 =>
    rw [set_arr_deep]
    by_cases hc : ((cs.getD s0.val GoTier.nilT)).isNil = true
    · rw [if_pos hc]; rfl
    · rw [if_neg hc]; rfl
  | GoTier.mapt cs, [] => rw [set_mapt_last]; rfl
  | GoTier.mapt cs, r0 :: rest2 =>
    rw [set_mapt_deep]
    by_cases hc : (lookupT cs s0).isNil = true
    · rw [if_pos hc]; rfl
    · rw [if_neg hc]; rfl
  | GoTier.slice cs, [] =>
    rw [set_slice_last]
    by_cases he : cs.isEmpty = true
    · rw [if_pos he]; rfl
    · rw [if_neg he]
      by_cases hck : containsKey cs s0 = true
      · rw [if_pos hck]; rfl
      · rw [if_neg hck]; rfl
  | GoTier.slice cs, r0 :: rest2 =>
    rw [set_slice_deep]
    by_cases he : cs.isEmpty = true
    · rw [if_pos he]; rfl
    · rw [if_neg he]
      by_cases hck : containsKey cs s0 = true
      · rw [if_pos hck]
        by_cases hc : (sliceGet cs s0).isNil = true
        · rw [if_pos hc]; rfl
        · rw [if_neg hc]; rfl
      · rw [if_neg hck]; rfl

lemma interior_facts (r : GoTier) (h : isInterior r = true) :
    r ≠ GoTier.nilT ∧ r ≠ GoTier.zero ∧ r.isNil = false := by
  match r with
  | GoTier.uni _ _ => exact ⟨by simp, by simp, rfl⟩
  | GoTier.arr _ => exact ⟨by simp, by simp, rfl⟩
  | GoTier.mapt _ => exact ⟨by simp, by simp, rfl⟩
  | GoTier.slice _ => exact ⟨by simp, by simp, rfl⟩

lemma set_ne_nil (t : GoTier) (s0 : Byte) (rest : List Byte) (sub : GoTier)
    (hne : t ≠ GoTier.nilT) : t.set (s0 :: rest) sub ≠ GoTier.nilT :=
  (interior_facts _ (set_isInterior t s0 rest sub hne)).1

lemma set_ne_zero (t : GoTier) (s0 : Byte) (rest : List Byte) (sub : GoTier)
    (hne : t ≠ GoTier.nilT) : t.set (s0 :: rest) sub ≠ GoTier.zero :=
  (interior_facts _ (set_isInterior t s0 rest sub hne)).2.1

lemma val_ne_of_ne (a b : Byte) (h : a ≠ b) : a.val ≠ b.val :=
  fun hh => h (Fin.val_injective hh)

/-- Setting a one-byte path installs the terminal directly under that
byte. -/
lemma get_set_last (t : GoTier) (sub : GoTier) (b : Byte)
    (hwf : wfS t = true) (hne : t ≠ GoTier.nilT) : (t.set [b] sub).get b = sub := by
  match t with
  | GoTier.nilT => exact absurd rfl hne
  | GoTier.zero => rw [set_zero_last, get_uni_self]
  | GoTier.uni b2 c =>
    rw [set_uni_last]
    by_cases hb : b2 = b
    · rw [if_pos hb]
      subst hb
      exact get_uni_self b2 sub
    · rw [if_neg hb, GoTier.get]
      refine getD_set_self _ b.val sub ?_
      rw [List.length_set, List.length_replicate]
      exact b.isLt
  | GoTier.arr cs =>
    rw [wfS, Bool.and_eq_true, decide_eq_true_iff] at hwf
    rw [set_arr_last, GoTier.get]
    refine getD_set_self cs b.val sub ?_
    rw [hwf.1]
    exact b.isLt
  | GoTier.mapt cs =>
    rw [set_mapt_last, GoTier.get]
    exact lookupT_maptSet_self cs b sub
  | GoTier.slice cs =>
    rw [wfS, Bool.and_eq_true] at hwf
    rw [set_slice_last]
    by_cases he : cs.isEmpty = true
    · rw [if_pos he]
      exact get_uni_self b sub
    · rw [if_neg he]
      by_cases hck : containsKey cs b = true
      · rw [if_pos hck, GoTier.get]
        exact sliceGet_updateP_self cs b sub hwf.1 hck
      · rw [if_neg hck, GoTier.get]
        refine sliceGet_sliceInsert_self cs b sub ?_
        rw [Bool.not_eq_true] at hck
        exact hck

/-- Setting a longer path grows or replaces the child under the first byte
with the recursive set on the old child (or on a fresh unitier when there
was none). -/
lemma get_set_deeper (t : GoTier) (sub : GoTier) (b r0 : Byte) (rest2 : List Byte)
    (hwf : wfS t = true) (hne : t ≠ GoTier.nilT) :
    (t.set (b :: r0 :: rest2) sub).get b =
      (if (t.get b).isNil = true then GoTier.uni r0 GoTier.nilT else t.get b).set
        (r0 :: rest2) sub := by
  match t with
  | GoTier.nilT => exact absurd rfl hne
  | GoTier.zero =>
    have hg : GoTier.zero.get b = GoTier.nilT := rfl
    rw [hg, if_pos nilT_isNil, set_zero_deep, get_uni_self]
  | GoTier.uni b2 c =>
    by_cases hb : b2 = b
    · subst hb
      rw [set_uni_deep, if_pos rfl, get_uni_self b2]
      by_cases hc : c.isNil = true
      · rw [if_pos hc, if_pos hc, get_uni_self]
      · rw [if_neg hc, if_neg hc, get_uni_self]
    · rw [set_uni_deep, if_neg hb, get_uni_other b2 c b fun hh => hb hh.symm,
        if_pos nilT_isNil]
      have hdg : ((List.replicate 256 GoTier.nilT).set b2.val c).getD b.val
          GoTier.nilT = GoTier.nilT :=
        getD_replicate_set_other c b2.val b.val (val_ne_of_ne b2 b hb)
      rw [hdg, if_pos nilT_isNil, GoTier.get]
      refine getD_set_self _ b.val _ ?_
      rw [List.length_set, List.length_replicate]
      exact b.isLt
  | GoTier.arr cs =>
    rw [wfS, Bool.and_eq_true, decide_eq_true_iff] at hwf
    have hg : (GoTier.arr cs).get b = cs.getD b.val GoTier.nilT := rfl
    rw [hg, set_arr_deep]
    by_cases hc : (cs.getD b.val GoTier.nilT).isNil = true
    · rw [if_pos hc, if_pos hc, GoTier.get]
      refine getD_set_self cs b.val _ ?_
      rw [hwf.1]
      exact b.isLt
    · rw [if_neg hc, if_neg hc, GoTier.get]
      refine getD_set_self cs b.val _ ?_
      rw [hwf.1]
      exact b.isLt
  | GoTier.mapt cs =>
    have hg : (GoTier.mapt cs).get b = lookupT cs b := rfl
    rw [hg, set_mapt_deep]
    by_cases hc : (lookupT cs b).isNil = true
    · rw [if_pos hc, if_pos hc, GoTier.get]
      exact lookupT_maptSet_self cs b _
    · rw [if_neg hc, if_neg hc, GoTier.get]
      exact lookupT_maptSet_self cs b _
  | GoTier.slice cs =>
    rw [wfS, Bool.and_eq_true] at hwf
    have hg : (GoTier.slice cs).get b = sliceGet cs b := rfl
    rw [hg, set_slice_deep]
    by_cases he : cs.isEmpty = true
    · have hcs : cs = [] := List.isEmpty_iff.1 he
      subst hcs
      have hg2 : sliceGet [] b = GoTier.nilT := rfl
      rw [if_pos emptyPairs_isEmpty, hg2, if_pos nilT_isNil, get_uni_self]
    · rw [if_neg he]
      by_cases hck : containsKey cs b = true
      · rw [if_pos hck]
        by_cases hc : (sliceGet cs b).isNil = true
        · rw [if_pos hc, if_pos hc, GoTier.get]
          exact sliceGet_updateP_self cs b _ hwf.1 hck
        · rw [if_neg hc, if_neg hc, GoTier.get]
          exact sliceGet_updateP_self cs b _ hwf.1 hck
      · rw [if_neg hck]
        have hck2 : containsKey cs b = false := by
          rw [Bool.not_eq_true] at hck
          exact hck
        have hg2 : sliceGet cs b = GoTier.nilT := sliceGet_not_contains cs b hck2
        rw [hg2, if_pos nilT_isNil, GoTier.get]
        exact sliceGet_sliceInsert_self cs b _ hck2

/-- Setting a path leaves the children under every other byte unchanged. -/
lemma get_set_other (t : GoTier) (sub : GoTier) (b : Byte) (rest : List Byte)
    (b2 : Byte) (hne : b2 ≠ b) : (t.set (b :: rest) sub).get b2 = t.get b2 := by
  match t, rest with
  | GoTier.nilT, _ => rfl
  | GoTier.zero, [] =>
    rw [set_zero_last, get_uni_other b _ b2 hne]
    rfl
  | GoTier.zero, r0 :: rest2 =>
    rw [set_zero_deep, get_uni_other b _ b2 hne]
    rfl
  | GoTier.uni b3 c, [] =>
    rw [set_uni_last]
    by_cases hb : b3 = b
    · subst hb
      rw [if_pos rfl, get_uni_other b3 sub b2 hne, get_uni_other b3 c b2 hne]
    · rw [if_neg hb]
      have harr : (GoTier.arr (((List.replicate 256 GoTier.nilT).set b3.val c).set
          b.val sub)).get b2 =
          (((List.replicate 256 GoTier.nilT).set b3.val c).set b.val sub).getD
            b2.val GoTier.nilT := rfl
      rw [harr,
        getD_set_other _ b.val b2.val sub (val_ne_of_ne b b2 fun hh => hne hh.symm)]
      by_cases hb3 : b3 = b2
      · subst hb3
        rw [get_uni_self, getD_replicate_set_self c b3.val b3.isLt]
      · rw [get_uni_other b3 c b2 fun hh => hb3 hh.symm,
          getD_replicate_set_other c b3.val b2.val (val_ne_of_ne b3 b2 hb3)]
  | GoTier.uni b3 c, r0 :: rest2 =>
    rw [set_uni_deep]
    by_cases hb : b3 = b
    · subst hb
      rw [if_pos rfl]
      by_cases hc : c.isNil = true
      · rw [if_pos hc, get_uni_other b3 _ b2 hne, get_uni_other b3 c b2 hne]
      · rw [if_neg hc, get_uni_other b3 _ b2 hne, get_uni_other b3 c b2 hne]
    · rw [if_neg hb]
      have key : ∀ st : GoTier,
          (GoTier.arr (((List.replicate 256 GoTier.nilT).set b3.val c).set b.val
            st)).get b2 = (GoTier.uni b3 c).get b2 := by
        intro st
        have harr : (GoTier.arr (((List.replicate 256 GoTier.nilT).set b3.val c).set
            b.val st)).get b2 =
            (((List.replicate 256 GoTier.nilT).set b3.val c).set b.val st).getD
              b2.val GoTier.nilT := rfl
        rw [harr,
          getD_set_other _ b.val b2.val st (val_ne_of_ne b b2 fun hh => hne hh.symm)]
        by_cases hb3 : b3 = b2
        · subst hb3
          rw [get_uni_self, getD_replicate_set_self c b3.val b3.isLt]
        · rw [get_uni_other b3 c b2 fun hh => hb3 hh.symm,
            getD_replicate_set_other c b3.val b2.val (val_ne_of_ne b3 b2 hb3)]
      by_cases hc : (((List.replicate 256 GoTier.nilT).set b3.val c).getD b.val
          GoTier.nilT).isNil = true
      · rw [if_pos hc]; exact key _
      · rw [if_neg hc]; exact key _
  | GoTier.arr cs, [] =>
    rw [set_arr_last, GoTier.get, GoTier.get]
    exact getD_set_other cs b.val b2.val sub (val_ne_of_ne b b2 fun hh => hne hh.symm)
  | GoTier.arr cs, r0 :: rest2 =>
    rw [set_arr_deep]
    have key : ∀ st : GoTier, (GoTier.arr (cs.set b.val st)).get b2 =
        (GoTier.arr cs).get b2 := by
      intro st
      rw [GoTier.get, GoTier.get]
      exact getD_set_other cs b.val b2.val st (val_ne_of_ne b b2 fun hh => hne hh.symm)
    by_cases hc : ((cs.getD b.val GoTier.nilT)).isNil = true
    · rw [if_pos hc]; exact key _
    · rw [if_neg hc]; exact key _
  | GoTier.mapt cs, [] =>
    rw [set_mapt_last, GoTier.get, GoTier.get]
    exact lookupT_maptSet_other cs b b2 sub hne
  | GoTier.mapt cs, r0 :: rest2 =>
    rw [set_mapt_deep]
    have key : ∀ st : GoTier, (GoTier.mapt (maptSet cs b st)).get b2 =
        (GoTier.mapt cs).get b2 := by
      intro st
      rw [GoTier.get, GoTier.get]
      exact lookupT_maptSet_other cs b b2 st hne
    by_cases hc : (lookupT cs b).isNil = true
    · rw [if_pos hc]; exact key _
    · rw [if_neg hc]; exact key _
  | GoTier.slice cs, [] =>
    rw [set_slice_last]
    by_cases he : cs.isEmpty = true
    · have hcs : cs = [] := List.isEmpty_iff.1 he
      subst hcs
      rw [if_pos emptyPairs_isEmpty, get_uni_other b sub b2 hne]
      rfl
    · rw [if_neg he]
      by_cases hck : containsKey cs b = true
      · rw [if_pos hck, GoTier.get, GoTier.get]
        exact sliceGet_updateP_other cs b b2 sub hne
      · rw [if_neg hck, GoTier.get, GoTier.get]
        exact sliceGet_sliceInsert_other cs b b2 sub hne
  | GoTier.slice cs, r0 :: rest2 =>
    rw [set_slice_deep]
    by_cases he : cs.isEmpty = true
    · have hcs : cs = [] := List.isEmpty_iff.1 he
      subst hcs
      rw [if_pos emptyPairs_isEmpty, get_uni_other b _ b2 hne]
      rfl
    · rw [if_neg he]
      by_cases hck : containsKey cs b = true
      · rw [if_pos hck]
        have key : ∀ st : GoTier, (GoTier.slice (updateP cs b st)).get b2 =
            (GoTier.slice cs).get b2 := by
          intro st
          rw [GoTier.get, GoTier.get]
          exact sliceGet_updateP_other cs b b2 st hne
        by_cases hc : (sliceGet cs b).isNil = true
        · rw [if_pos hc]; exact key _
        · rw [if_neg hc]; exact key _
      · rw [if_neg hck, GoTier.get, GoTier.get]
        exact sliceGet_sliceInsert_other cs b b2 _ hne

lemma wfS_chainT (rest : List Byte) (sub : GoTier) (h : wfS sub = true) :
    wfS (chainT rest sub) = true := by
  induction rest with
  | nil => exact h
  | cons b r ih => exact ih

lemma properT_chainT (rest : List Byte) (sub : GoTier) (h : properT sub = true)
    (hne : sub ≠ GoTier.nilT) : properT (chainT rest sub) = true := by
  induction rest with
  | nil => exact h
  | cons b r ih =>
    show (!(chainT r sub).isNil && properT (chainT r sub)) = true
    have hni : (chainT r sub).isNil = false := by
      rcases Bool.eq_false_or_eq_true ((chainT r sub).isNil) with h2 | h2
      · exact absurd ((isNil_iff _).1 h2) (chainT_ne_nil r sub hne)
      · exact h2
    rw [hni, ih]
    rfl

lemma wfSL_replicate (n : ℕ) : wfSL (List.replicate n GoTier.nilT) = true := by
  induction n with
  | zero => rfl
  | succ k ih =>
    show (wfS GoTier.nilT && wfSL (List.replicate k GoTier.nilT)) = true
    rw [Bool.and_eq_true]
    exact ⟨rfl, ih⟩

lemma wfSL_set (cs : List GoTier) (i : ℕ) (v : GoTier) (hcs : wfSL cs = true)
    (hv : wfS v = true) : wfSL (cs.set i v) = true := by
  induction cs generalizing i with
  | nil => exact hcs
  | cons x rest ih =>
    rw [wfSL, Bool.and_eq_true] at hcs
    match i with
    | 0 =>
      show (wfS v && wfSL rest) = true
      rw [Bool.and_eq_true]
      exact ⟨hv, hcs.2⟩
    | j + 1 =>
      show (wfS x && wfSL (rest.set j v)) = true
      rw [Bool.and_eq_true]
      exact ⟨hcs.1, ih j hcs.2⟩

lemma wfSP_updateP (cs : List (Byte × GoTier)) (b : Byte) (v : GoTier)
    (hcs : wfSP cs = true) (hv : wfS v = true) : wfSP (updateP cs b v) = true := by
  induction cs with
  | nil => exact hcs
  | cons p rest ih =>
    match p with
    | (k, w) =>
      rw [wfSP, Bool.and_eq_true] at hcs
      rw [updateP]
      by_cases hk : k = b
      · rw [if_pos hk]
        show (wfS v && wfSP rest) = true
        rw [Bool.and_eq_true]
        exact ⟨hv, hcs.2⟩
      · rw [if_neg hk]
        show (wfS w && wfSP (updateP rest b v)) = true
        rw [Bool.and_eq_true]
        exact ⟨hcs.1, ih hcs.2⟩

lemma wfSP_append (cs : List (Byte × GoTier)) (b : Byte) (v : GoTier)
    (hcs : wfSP cs = true) (hv : wfS v = true) : wfSP (cs ++ [(b, v)]) = true := by
  induction cs with
  | nil =>
    show (wfS v && wfSP []) = true
    rw [Bool.and_eq_true]
    exact ⟨hv, rfl⟩
  | cons p rest ih =>
    match p with
    | (k, w) =>
      rw [wfSP, Bool.and_eq_true] at hcs
      rw [List.cons_append]
      show (wfS w && wfSP (rest ++ [(b, v)])) = true
      rw [Bool.and_eq_true]
      exact ⟨hcs.1, ih hcs.2⟩

lemma wfSP_maptSet (cs : List (Byte × GoTier)) (b : Byte) (v : GoTier)
    (hcs : wfSP cs = true) (hv : wfS v = true) : wfSP (maptSet cs b v) = true := by
  rw [maptSet]
  by_cases h : containsKey cs b = true
  · rw [if_pos h]
    exact wfSP_updateP cs b v hcs hv
  · rw [if_neg h]
    exact wfSP_append cs b v hcs hv

lemma wfSP_sliceInsert (cs : List (Byte × GoTier)) (b : Byte) (v : GoTier)
    (hcs : wfSP cs = true) (hv : wfS v = true) : wfSP (sliceInsert cs b v) = true := by
  induction cs with
  | nil =>
    show (wfS v && wfSP []) = true
    rw [Bool.and_eq_true]
    exact ⟨hv, rfl⟩
  | cons p rest ih =>
    match p with
    | (k, w) =>
      rw [wfSP, Bool.and_eq_true] at hcs
      rw [sliceInsert]
      by_cases hlt : b < k
      · rw [if_pos hlt]
        show (wfS v && wfSP ((k, w) :: rest)) = true
        rw [Bool.and_eq_true, wfSP, Bool.and_eq_true]
        exact ⟨hv, hcs.1, hcs.2⟩
      · rw [if_neg hlt]
        show (wfS w && wfSP (sliceInsert rest b v)) = true
        rw [Bool.and_eq_true]
        exact ⟨hcs.1, ih hcs.2⟩

lemma sortedKeys_updateP (cs : List (Byte × GoTier)) (b : Byte) (v : GoTier)
    (hs : sortedKeys cs = true) : sortedKeys (updateP cs b v) = true := by
  induction cs with
  | nil => rfl
  | cons p rest ih =>
    match p with
    | (k, w) =>
      rw [updateP]
      by_cases hk : k = b
      · rw [if_pos hk]
        subst hk
        match rest with
        | [] => rfl
        | (k2, w2) :: r2 =>
          rw [sortedKeys, Bool.and_eq_true] at hs
          rw [sortedKeys, Bool.and_eq_true]
          exact hs
      · rw [if_neg hk]
        match rest with
        | [] => rfl
        | (k2, w2) :: r2 =>
          rw [sortedKeys, Bool.and_eq_true] at hs
          have ih2 := ih hs.2
          rw [updateP] at ih2 ⊢
          by_cases hk2 : k2 = b
          · rw [if_pos hk2] at ih2 ⊢
            subst hk2
            rw [sortedKeys, Bool.and_eq_true]
            exact ⟨hs.1, ih2⟩
          · rw [if_neg hk2] at ih2 ⊢
            rw [sortedKeys, Bool.and_eq_true]
            exact ⟨hs.1, ih2⟩

lemma sortedKeys_cons_of (k : Byte) (w : GoTier) (rest : List (Byte × GoTier))
    (hrest : sortedKeys rest = true)
    (hhead : ∀ p ∈ rest, k < p.1) : sortedKeys ((k, w) :: rest) = true := by
  match rest with
  | [] => rfl
  | (k2, w2) :: r2 =>
    rw [sortedKeys, Bool.and_eq_true, decide_eq_true_iff]
    exact ⟨hhead (k2, w2) (by simp), hrest⟩

lemma sliceInsert_mem_keys (cs : List (Byte × GoTier)) (b : Byte) (v : GoTier) :
    ∀ p ∈ sliceInsert cs b v, p.1 = b ∨ p ∈ cs := by
  induction cs with
  | nil =>
    intro p hp
    rw [sliceInsert] at hp
    rcases List.mem_singleton.1 hp with h
    rw [h]
    exact Or.inl rfl
  | cons q rest ih =>
    match q with
    | (k, w) =>
      intro p hp
      rw [sliceInsert] at hp
      by_cases hlt : b < k
      · rw [if_pos hlt] at hp
        rcases List.mem_cons.1 hp with h | h
        · rw [h]; exact Or.inl rfl
        · exact Or.inr h
      · rw [if_neg hlt] at hp
        rcases List.mem_cons.1 hp with h | h
        · rw [h]; exact Or.inr (by simp)
        · rcases ih p h with h2 | h2
          · exact Or.inl h2
          · exact Or.inr (List.mem_cons_of_mem _ h2)

lemma sortedKeys_sliceInsert (cs : List (Byte × GoTier)) (b : Byte) (v : GoTier)
    (hs : sortedKeys cs = true) (hnc : containsKey cs b = false) :
    sortedKeys (sliceInsert cs b v) = true := by
  induction cs with
  | nil => rfl
  | cons p rest ih =>
    match p with
    | (k, w) =>
      rw [containsKey, Bool.or_eq_false_iff] at hnc
      have hkb : k ≠ b := by simpa using hnc.1
      rw [sliceInsert]
      by_cases hlt : b < k
      · rw [if_pos hlt]
        refine sortedKeys_cons_of b v ((k, w) :: rest) hs ?_
        intro q hq
        rcases List.mem_cons.1 hq with h | h
        · rw [h]; exact hlt
        · exact lt_trans hlt (sortedKeys_head_lt_mem k w rest hs q h)
      · rw [if_neg hlt]
        have hbk : k < b :=
          lt_of_le_of_ne (not_lt.1 hlt) fun he => hkb he
        refine sortedKeys_cons_of k w (sliceInsert rest b v)
          (ih (sortedKeys_tail _ _ hs) hnc.2) ?_
        intro q hq
        rcases sliceInsert_mem_keys rest b v q hq with h | h
        · rw [h]; exact hbk
        · exact sortedKeys_head_lt_mem k w rest hs q h

/-- set preserves structural well-formedness. -/
lemma wfS_set :
    ∀ (str : List Byte) (t sub : GoTier), wfS t = true → wfS sub = true →
      str ≠ [] → wfS (t.set str sub) = true := by
  intro str
  induction str with
  | nil => intro t sub _ _ h; exact absurd rfl h
  | cons s0 rest ih =>
    intro t sub hwf hsub _
    match t, rest with
    | GoTier.nilT, _ => rfl
    | GoTier.zero, [] => rw [set_zero_last]; exact hsub
    | GoTier.zero, r0 :: rest2 =>
      rw [set_zero_deep]
      exact ih (GoTier.uni r0 GoTier.nilT) sub rfl hsub (by simp)
    | GoTier.uni b c, [] =>
      rw [set_uni_last]
      by_cases hb : b = s0
      · rw [if_pos hb]; exact hsub
      · rw [if_neg hb]
        show (decide ((((List.replicate 256 GoTier.nilT).set b.val c).set s0.val
          sub).length = 256) && wfSL (((List.replicate 256 GoTier.nilT).set b.val
            c).set s0.val sub)) = true
        rw [Bool.and_eq_true, decide_eq_true_iff]
        constructor
        · rw [List.length_set, List.length_set, List.length_replicate]
        · exact wfSL_set _ s0.val sub (wfSL_set _ b.val c (wfSL_replicate 256) hwf)
            hsub
    | GoTier.uni b c, r0 :: rest2 =>
      rw [set_uni_deep]
      by_cases hb : b = s0
      · rw [if_pos hb]
        by_cases hc : c.isNil = true
        · rw [if_pos hc]
          exact ih (GoTier.uni r0 GoTier.nilT) sub rfl hsub (by simp)
        · rw [if_neg hc]
          exact ih c sub hwf hsub (by simp)
      · rw [if_neg hb]
        have hdg : ((List.replicate 256 GoTier.nilT).set b.val c).getD s0.val
            GoTier.nilT = GoTier.nilT :=
          getD_replicate_set_other c b.val s0.val (val_ne_of_ne b s0 hb)
        rw [hdg, if_pos nilT_isNil]
        show (decide ((((List.replicate 256 GoTier.nilT).set b.val c).set s0.val
          ((GoTier.uni r0 GoTier.nilT).set (r0 :: rest2) sub)).length = 256) &&
          wfSL (((List.replicate 256 GoTier.nilT).set b.val c).set s0.val
          ((GoTier.uni r0 GoTier.nilT).set (r0 :: rest2) sub))) = true
        rw [Bool.and_eq_true, decide_eq_true_iff]
        constructor
        · rw [List.length_set, List.length_set, List.length_replicate]
        · refine wfSL_set _ s0.val _ (wfSL_set _ b.val c (wfSL_replicate 256) hwf) ?_
          exact ih (GoTier.uni r0 GoTier.nilT) sub rfl hsub (by simp)
    | GoTier.arr cs, [] =>
      rw [wfS, Bool.and_eq_true, decide_eq_true_iff] at hwf
      rw [set_arr_last]
      show (decide ((cs.set s0.val sub).length = 256) && wfSL (cs.set s0.val
        sub)) = true
      rw [Bool.and_eq_true, decide_eq_true_iff]
      constructor
      · rw [List.length_set]; exact hwf.1
      · exact wfSL_set cs s0.val sub hwf.2 hsub
    | GoTier.arr cs, r0 :: rest2 =>
      rw [wfS, Bool.and_eq_true, decide_eq_true_iff] at hwf
      rw [set_arr_deep]
      have key : ∀ st : GoTier, wfS st = true →
          wfS (GoTier.arr (cs.set s0.val st)) = true := by
        intro st hst
        show (decide ((cs.set s0.val st).length = 256) && wfSL (cs.set s0.val
          st)) = true
        rw [Bool.and_eq_true, decide_eq_true_iff]
        constructor
        · rw [List.length_set]; exact hwf.1
        · exact wfSL_set cs s0.val st hwf.2 hst
      by_cases hc : (cs.getD s0.val GoTier.nilT).isNil = true
      · rw [if_pos hc]
        exact key _ (ih (GoTier.uni r0 GoTier.nilT) sub rfl hsub (by simp))
      · rw [if_neg hc]
        exact key _ (ih _ sub (wfSL_getD cs s0.val hwf.2) hsub (by simp))
    | GoTier.mapt cs, [] =>
      rw [set_mapt_last]
      exact wfSP_maptSet cs s0 sub hwf hsub
    | GoTier.mapt cs, r0 :: rest2 =>
      rw [set_mapt_deep]
      by_cases hc : (lookupT cs s0).isNil = true
      · rw [if_pos hc]
        exact wfSP_maptSet cs s0 _ hwf
          (ih (GoTier.uni r0 GoTier.nilT) sub rfl hsub (by simp))
      · rw [if_neg hc]
        exact wfSP_maptSet cs s0 _ hwf
          (ih _ sub (wfSP_lookupT cs s0 hwf) hsub (by simp))
    | GoTier.slice cs, [] =>
      rw [wfS, Bool.and_eq_true] at hwf
      rw [set_slice_last]
      by_cases he : cs.isEmpty = true
      · rw [if_pos he]; exact hsub
      · rw [if_neg he]
        by_cases hck : containsKey cs s0 = true
        · rw [if_pos hck]
          show (sortedKeys (updateP cs s0 sub) && wfSP (updateP cs s0 sub)) = true
          rw [Bool.and_eq_true]
          exact ⟨sortedKeys_updateP cs s0 sub hwf.1, wfSP_updateP cs s0 sub hwf.2 hsub⟩
        · rw [if_neg hck]
          rw [Bool.not_eq_true] at hck
          show (sortedKeys (sliceInsert cs s0 sub) && wfSP (sliceInsert cs s0
            sub)) = true
          rw [Bool.and_eq_true]
          exact ⟨sortedKeys_sliceInsert cs s0 sub hwf.1 hck,
            wfSP_sliceInsert cs s0 sub hwf.2 hsub⟩
    | GoTier.slice cs, r0 :: rest2 =>
      rw [wfS, Bool.and_eq_true] at hwf
      rw [set_slice_deep]
      by_cases he : cs.isEmpty = true
      · rw [if_pos he]
        exact ih (GoTier.uni r0 GoTier.nilT) sub rfl hsub (by simp)
      · rw [if_neg he]
        by_cases hck : containsKey cs s0 = true
        · rw [if_pos hck]
          have key : ∀ st : GoTier, wfS st = true →
              wfS (GoTier.slice (updateP cs s0 st)) = true := by
            intro st hst
            show (sortedKeys (updateP cs s0 st) && wfSP (updateP cs s0 st)) = true
            rw [Bool.and_eq_true]
            exact ⟨sortedKeys_updateP cs s0 st hwf.1, wfSP_updateP cs s0 st hwf.2 hst⟩
          by_cases hc : (sliceGet cs s0).isNil = true
          · rw [if_pos hc]
            exact key _ (ih (GoTier.uni r0 GoTier.nilT) sub rfl hsub (by simp))
          · rw [if_neg hc]
            exact key _ (ih _ sub (wfSP_sliceGet cs s0 hwf.2) hsub (by simp))
        · rw [if_neg hck]
          rw [Bool.not_eq_true] at hck
          show (sortedKeys (sliceInsert cs s0 ((GoTier.uni r0 GoTier.nilT).set
            (r0 :: rest2) sub)) && wfSP (sliceInsert cs s0 ((GoTier.uni r0
            GoTier.nilT).set (r0 :: rest2) sub))) = true
          rw [Bool.and_eq_true]
          refine ⟨sortedKeys_sliceInsert cs s0 _ hwf.1 hck,
            wfSP_sliceInsert cs s0 _ hwf.2 ?_⟩
          exact ih (GoTier.uni r0 GoTier.nilT) sub rfl hsub (by simp)

lemma isNil_false_of_ne (t : GoTier) (h : t ≠ GoTier.nilT) : t.isNil = false := by
  rcases Bool.eq_false_or_eq_true t.isNil with h2 | h2
  · exact absurd ((isNil_iff _).1 h2) h
  · exact h2

lemma properTL_replicate (n : ℕ) : properTL (List.replicate n GoTier.nilT) = true := by
  induction n with
  | zero => rfl
  | succ k ih =>
    show (properT GoTier.nilT && properTL (List.replicate k GoTier.nilT)) = true
    rw [Bool.and_eq_true]
    exact ⟨rfl, ih⟩

lemma properTL_set (cs : List GoTier) (i : ℕ) (v : GoTier) (hcs : properTL cs = true)
    (hv : properT v = true) : properTL (cs.set i v) = true := by
  induction cs generalizing i with
  | nil => exact hcs
  | cons x rest ih =>
    rw [properTL, Bool.and_eq_true] at hcs
    match i with
    | 0 =>
      show (properT v && properTL rest) = true
      rw [Bool.and_eq_true]
      exact ⟨hv, hcs.2⟩
    | j + 1 =>
      show (properT x && properTL (rest.set j v)) = true
      rw [Bool.and_eq_true]
      exact ⟨hcs.1, ih j hcs.2⟩

lemma anyNonNil_set (cs : List GoTier) (i : ℕ) (v : GoTier)
    (hv : v ≠ GoTier.nilT)
    (halt : cs.any (fun x => !x.isNil) = true ∨ i < cs.length) :
    (cs.set i v).any (fun x => !x.isNil) = true := by
  by_cases hi : i < cs.length
  · have hlen : i < (cs.set i v).length := by rw [List.length_set]; omega
    refine List.any_eq_true.2 ⟨(cs.set i v)[i], List.getElem_mem hlen, ?_⟩
    have h2 : (cs.set i v)[i] = v := List.getElem_set_self hlen
    rw [h2, isNil_false_of_ne v hv]
    rfl
  · rw [List.set_eq_of_length_le (by omega)]
    rcases halt with h | h
    · exact h
    · omega

lemma properTP_updateP (cs : List (Byte × GoTier)) (b : Byte) (v : GoTier)
    (hcs : properTP cs = true) (hv : properT v = true) (hvn : v ≠ GoTier.nilT) :
    properTP (updateP cs b v) = true := by
  induction cs with
  | nil => exact hcs
  | cons p rest ih =>
    match p with
    | (k, w) =>
      rw [properTP, Bool.and_eq_true, Bool.and_eq_true] at hcs
      rw [updateP]
      by_cases hk : k = b
      · rw [if_pos hk]
        show (!v.isNil && properT v && properTP rest) = true
        rw [Bool.and_eq_true, Bool.and_eq_true, isNil_false_of_ne v hvn]
        exact ⟨⟨rfl, hv⟩, hcs.2⟩
      · rw [if_neg hk]
        show (!w.isNil && properT w && properTP (updateP rest b v)) = true
        rw [Bool.and_eq_true, Bool.and_eq_true]
        exact ⟨hcs.1, ih hcs.2⟩

lemma properTP_append (cs : List (Byte × GoTier)) (b : Byte) (v : GoTier)
    (hcs : properTP cs = true) (hv : properT v = true) (hvn : v ≠ GoTier.nilT) :
    properTP (cs ++ [(b, v)]) = true := by
  induction cs with
  | nil =>
    show (!v.isNil && properT v && properTP []) = true
    rw [Bool.and_eq_true, Bool.and_eq_true, isNil_false_of_ne v hvn]
    exact ⟨⟨rfl, hv⟩, rfl⟩
  | cons p rest ih =>
    match p with
    | (k, w) =>
      rw [properTP, Bool.and_eq_true, Bool.and_eq_true] at hcs
      rw [List.cons_append]
      show (!w.isNil && properT w && properTP (rest ++ [(b, v)])) = true
      rw [Bool.and_eq_true, Bool.and_eq_true]
      exact ⟨hcs.1, ih hcs.2⟩

lemma properTP_maptSet (cs : List (Byte × GoTier)) (b : Byte) (v : GoTier)
    (hcs : properTP cs = true) (hv : properT v = true) (hvn : v ≠ GoTier.nilT) :
    properTP (maptSet cs b v) = true := by
  rw [maptSet]
  by_cases h : containsKey cs b = true
  · rw [if_pos h]
    exact properTP_updateP cs b v hcs hv hvn
  · rw [if_neg h]
    exact properTP_append cs b v hcs hv hvn

lemma properTP_sliceInsert (cs : List (Byte × GoTier)) (b : Byte) (v : GoTier)
    (hcs : properTP cs = true) (hv : properT v = true) (hvn : v ≠ GoTier.nilT) :
    properTP (sliceInsert cs b v) = true := by
  induction cs with
  | nil =>
    show (!v.isNil && properT v && properTP []) = true
    rw [Bool.and_eq_true, Bool.and_eq_true, isNil_false_of_ne v hvn]
    exact ⟨⟨rfl, hv⟩, rfl⟩
  | cons p rest ih =>
    match p with
    | (k, w) =>
      rw [properTP, Bool.and_eq_true, Bool.and_eq_true] at hcs
      rw [sliceInsert]
      by_cases hlt : b < k
      · rw [if_pos hlt]
        show (!v.isNil && properT v && properTP ((k, w) :: rest)) = true
        rw [Bool.and_eq_true, Bool.and_eq_true, isNil_false_of_ne v hvn]
        refine ⟨⟨rfl, hv⟩, ?_⟩
        show (!w.isNil && properT w && properTP rest) = true
        rw [Bool.and_eq_true, Bool.and_eq_true]
        exact ⟨hcs.1, hcs.2⟩
      · rw [if_neg hlt]
        show (!w.isNil && properT w && properTP (sliceInsert rest b v)) = true
        rw [Bool.and_eq_true, Bool.and_eq_true]
        exact ⟨hcs.1, ih hcs.2⟩

lemma updateP_ne_nil (cs : List (Byte × GoTier)) (b : Byte) (v : GoTier)
    (h : cs ≠ []) : updateP cs b v ≠ [] := by
  match cs with
  | [] => exact absurd rfl h
  | (k, w) :: rest =>
    rw [updateP]
    by_cases hk : k = b
    · rw [if_pos hk]; simp
    · rw [if_neg hk]; simp

lemma sliceInsert_ne_nil (cs : List (Byte × GoTier)) (b : Byte) (v : GoTier) :
    sliceInsert cs b v ≠ [] := by
  match cs with
  | [] => simp [sliceInsert]
  | (k, w) :: rest =>
    rw [sliceInsert]
    by_cases hlt : b < k
    · rw [if_pos hlt]; simp
    · rw [if_neg hlt]; simp

lemma isEmpty_false_of_ne_nil (cs : List (Byte × GoTier)) (h : cs ≠ []) :
    cs.isEmpty = false := by
  match cs with
  | [] => exact absurd rfl h
  | p :: rest => rfl

/-- set preserves properness of reachable tiers. -/
lemma properT_set :
    ∀ (str : List Byte) (t sub : GoTier), properT t = true → properT sub = true →
      sub ≠ GoTier.nilT → str ≠ [] → properT (t.set str sub) = true := by
  intro str
  induction str with
  | nil => intro t sub _ _ _ h; exact absurd rfl h
  | cons s0 rest ih =>
    have chainOK : ∀ (r0 : Byte) (rest2 : List Byte) (sub : GoTier),
        properT sub = true → sub ≠ GoTier.nilT →
        properT ((GoTier.uni r0 GoTier.nilT).set (r0 :: rest2) sub) = true ∧
          (GoTier.uni r0 GoTier.nilT).set (r0 :: rest2) sub ≠ GoTier.nilT := by
      intro r0 rest2 sub hs hsn
      rw [fresh_set_chain rest2 r0 sub]
      exact ⟨properT_chainT _ sub hs hsn, chainT_ne_nil _ sub hsn⟩
    intro t sub hp hs hsn _
    match t, rest with
    | GoTier.nilT, _ => rfl
    | GoTier.zero, [] =>
      rw [set_zero_last]
      show (!sub.isNil && properT sub) = true
      rw [Bool.and_eq_true, isNil_false_of_ne sub hsn]
      exact ⟨rfl, hs⟩
    | GoTier.zero, r0 :: rest2 =>
      rw [set_zero_deep]
      obtain ⟨h1, h2⟩ := chainOK r0 rest2 sub hs hsn
      show (!((GoTier.uni r0 GoTier.nilT).set (r0 :: rest2) sub).isNil &&
        properT ((GoTier.uni r0 GoTier.nilT).set (r0 :: rest2) sub)) = true
      rw [Bool.and_eq_true, isNil_false_of_ne _ h2]
      exact ⟨rfl, h1⟩
    | GoTier.uni b c, [] =>
      rw [properT, Bool.and_eq_true] at hp
      rw [set_uni_last]
      by_cases hb : b = s0
      · rw [if_pos hb]
        show (!sub.isNil && properT sub) = true
        rw [Bool.and_eq_true, isNil_false_of_ne sub hsn]
        exact ⟨rfl, hs⟩
      · rw [if_neg hb]
        have hcn : c ≠ GoTier.nilT := by
          intro he
          rw [he] at hp
          exact Bool.false_ne_true hp.1
        show ((((List.replicate 256 GoTier.nilT).set b.val c).set s0.val sub).any
          (fun x => !x.isNil) && properTL (((List.replicate 256 GoTier.nilT).set
            b.val c).set s0.val sub)) = true
        rw [Bool.and_eq_true]
        constructor
        · refine anyNonNil_set _ s0.val sub hsn (Or.inr ?_)
          rw [List.length_set, List.length_replicate]
          exact s0.isLt
        · exact properTL_set _ s0.val sub
            (properTL_set _ b.val c (properTL_replicate 256) hp.2) hs
    | GoTier.uni b c, r0 :: rest2 =>
      rw [properT, Bool.and_eq_true] at hp
      have hcn : c ≠ GoTier.nilT := by
        intro he
        rw [he] at hp
        exact Bool.false_ne_true hp.1
      rw [set_uni_deep]
      by_cases hb : b = s0
      · rw [if_pos hb]
        have hcnil : c.isNil = false := isNil_false_of_ne c hcn
        rw [hcnil]
        simp only [Bool.false_eq_true, if_false]
        have hrec := ih c sub hp.2 hs hsn (by simp)
        have hrn := set_ne_nil c r0 rest2 sub hcn
        show (!(c.set (r0 :: rest2) sub).isNil && properT (c.set (r0 :: rest2)
          sub)) = true
        rw [Bool.and_eq_true, isNil_false_of_ne _ hrn]
        exact ⟨rfl, hrec⟩
      · rw [if_neg hb]
        have hdg : ((List.replicate 256 GoTier.nilT).set b.val c).getD s0.val
            GoTier.nilT = GoTier.nilT :=
          getD_replicate_set_other c b.val s0.val (val_ne_of_ne b s0 hb)
        rw [hdg, if_pos nilT_isNil]
        obtain ⟨h1, h2⟩ := chainOK r0 rest2 sub hs hsn
        show ((((List.replicate 256 GoTier.nilT).set b.val c).set s0.val
          ((GoTier.uni r0 GoTier.nilT).set (r0 :: rest2) sub)).any
          (fun x => !x.isNil) && properTL (((List.replicate 256 GoTier.nilT).set
            b.val c).set s0.val ((GoTier.uni r0 GoTier.nilT).set (r0 :: rest2)
              sub))) = true
        rw [Bool.and_eq_true]
        constructor
        · refine anyNonNil_set _ s0.val _ h2 (Or.inr ?_)
          rw [List.length_set, List.length_replicate]
          exact s0.isLt
        · exact properTL_set _ s0.val _
            (properTL_set _ b.val c (properTL_replicate 256) hp.2) h1
    | GoTier.arr cs, [] =>
      rw [properT, Bool.and_eq_true] at hp
      rw [set_arr_last]
      show ((cs.set s0.val sub).any (fun x => !x.isNil) && properTL (cs.set s0.val
        sub)) = true
      rw [Bool.and_eq_true]
      exact ⟨anyNonNil_set cs s0.val sub hsn (Or.inl hp.1),
        properTL_set cs s0.val sub hp.2 hs⟩
    | GoTier.arr cs, r0 :: rest2 =>
      rw [properT, Bool.and_eq_true] at hp
      rw [set_arr_deep]
      have key : ∀ st : GoTier, properT st = true → st ≠ GoTier.nilT →
          properT (GoTier.arr (cs.set s0.val st)) = true := by
        intro st h1 h2
        show ((cs.set s0.val st).any (fun x => !x.isNil) && properTL (cs.set s0.val
          st)) = true
        rw [Bool.and_eq_true]
        exact ⟨anyNonNil_set cs s0.val st h2 (Or.inl hp.1),
          properTL_set cs s0.val st hp.2 h1⟩
      by_cases hc : (cs.getD s0.val GoTier.nilT).isNil = true
      · rw [if_pos hc]
        obtain ⟨h1, h2⟩ := chainOK r0 rest2 sub hs hsn
        exact key _ h1 h2
      · rw [if_neg hc]
        have hel : cs.getD s0.val GoTier.nilT ≠ GoTier.nilT := by
          intro he
          rw [he] at hc
          exact hc rfl
        exact key _ (ih _ sub (properTL_getD cs s0.val hp.2) hs hsn (by simp))
          (set_ne_nil _ r0 rest2 sub hel)
    | GoTier.mapt cs, [] =>
      rw [properT, Bool.and_eq_true] at hp
      rw [set_mapt_last]
      have hcs : cs ≠ [] := by
        intro he
        rw [he] at hp
        exact Bool.false_ne_true hp.1
      show (!(maptSet cs s0 sub).isEmpty && properTP (maptSet cs s0 sub)) = true
      rw [Bool.and_eq_true]
      constructor
      · rw [maptSet]
        by_cases h : containsKey cs s0 = true
        · rw [if_pos h, isEmpty_false_of_ne_nil _ (updateP_ne_nil cs s0 sub hcs)]
          rfl
        · rw [if_neg h, isEmpty_false_of_ne_nil _ (by simp)]
          rfl
      · exact properTP_maptSet cs s0 sub hp.2 hs hsn
    | GoTier.mapt cs, r0 :: rest2 =>
      rw [properT, Bool.and_eq_true] at hp
      have hcs : cs ≠ [] := by
        intro he
        rw [he] at hp
        exact Bool.false_ne_true hp.1
      rw [set_mapt_deep]
      have key : ∀ st : GoTier, properT st = true → st ≠ GoTier.nilT →
          properT (GoTier.mapt (maptSet cs s0 st)) = true := by
        intro st h1 h2
        show (!(maptSet cs s0 st).isEmpty && properTP (maptSet cs s0 st)) = true
        rw [Bool.and_eq_true]
        constructor
        · rw [maptSet]
          by_cases h : containsKey cs s0 = true
          · rw [if_pos h, isEmpty_false_of_ne_nil _ (updateP_ne_nil cs s0 st hcs)]
            rfl
          · rw [if_neg h, isEmpty_false_of_ne_nil _ (by simp)]
            rfl
        · exact properTP_maptSet cs s0 st hp.2 h1 h2
      by_cases hc : (lookupT cs s0).isNil = true
      · rw [if_pos hc]
        obtain ⟨h1, h2⟩ := chainOK r0 rest2 sub hs hsn
        exact key _ h1 h2
      · rw [if_neg hc]
        have hel : lookupT cs s0 ≠ GoTier.nilT := by
          intro he
          rw [he] at hc
          exact hc rfl
        exact key _ (ih _ sub (properTP_lookupT cs s0 hp.2) hs hsn (by simp))
          (set_ne_nil _ r0 rest2 sub hel)
    | GoTier.slice cs, [] =>
      rw [properT, Bool.and_eq_true] at hp
      have hcs : cs ≠ [] := by
        intro he
        rw [he] at hp
        exact Bool.false_ne_true hp.1
      rw [set_slice_last, if_neg (by rw [isEmpty_false_of_ne_nil cs hcs]; simp)]
      by_cases hck : containsKey cs s0 = true
      · rw [if_pos hck]
        show (!(updateP cs s0 sub).isEmpty && properTP (updateP cs s0 sub)) = true
        rw [Bool.and_eq_true,
          isEmpty_false_of_ne_nil _ (updateP_ne_nil cs s0 sub hcs)]
        exact ⟨rfl, properTP_updateP cs s0 sub hp.2 hs hsn⟩
      · rw [if_neg hck]
        show (!(sliceInsert cs s0 sub).isEmpty && properTP (sliceInsert cs s0
          sub)) = true
        rw [Bool.and_eq_true,
          isEmpty_false_of_ne_nil _ (sliceInsert_ne_nil cs s0 sub)]
        exact ⟨rfl, properTP_sliceInsert cs s0 sub hp.2 hs hsn⟩
    | GoTier.slice cs, r0 :: rest2 =>
      rw [properT, Bool.and_eq_true] at hp
      have hcs : cs ≠ [] := by
        intro he
        rw [he] at hp
        exact Bool.false_ne_true hp.1
      rw [set_slice_deep, if_neg (by rw [isEmpty_false_of_ne_nil cs hcs]; simp)]
      by_cases hck : containsKey cs s0 = true
      · rw [if_pos hck]
        have key : ∀ st : GoTier, properT st = true → st ≠ GoTier.nilT →
            properT (GoTier.slice (updateP cs s0 st)) = true := by
          intro st h1 h2
          show (!(updateP cs s0 st).isEmpty && properTP (updateP cs s0 st)) = true
          rw [Bool.and_eq_true,
            isEmpty_false_of_ne_nil _ (updateP_ne_nil cs s0 st hcs)]
          exact ⟨rfl, properTP_updateP cs s0 st hp.2 h1 h2⟩
        by_cases hc : (sliceGet cs s0).isNil = true
        · rw [if_pos hc]
          obtain ⟨h1, h2⟩ := chainOK r0 rest2 sub hs hsn
          exact key _ h1 h2
        · rw [if_neg hc]
          have hel : sliceGet cs s0 ≠ GoTier.nilT := by
            intro he
            rw [he] at hc
            exact hc rfl
          exact key _ (ih _ sub (properTP_sliceGet cs s0 hp.2) hs hsn (by simp))
            (set_ne_nil _ r0 rest2 sub hel)
      · rw [if_neg hck]
        obtain ⟨h1, h2⟩ := chainOK r0 rest2 sub hs hsn
        show (!(sliceInsert cs s0 ((GoTier.uni r0 GoTier.nilT).set (r0 :: rest2)
          sub)).isEmpty && properTP (sliceInsert cs s0 ((GoTier.uni r0
            GoTier.nilT).set (r0 :: rest2) sub))) = true
        rw [Bool.and_eq_true,
          isEmpty_false_of_ne_nil _ (sliceInsert_ne_nil cs s0 _)]
        exact ⟨rfl, properTP_sliceInsert cs s0 _ hp.2 h1 h2⟩

lemma check_cons (t : GoTier) (s0 : Byte) (rest pre : List Byte) :
    check t (s0 :: rest) pre =
      if (t.get s0).isNil = true then (pre, t.empty)
      else check (t.get s0) rest (pre ++ [s0]) := rfl

lemma check_zero (x pre : List Byte) : check GoTier.zero x pre = (pre, true) := by
  match x with
  | [] => rfl
  | x0 :: xs => rfl

lemma check_chain (rest : List Byte) :
    ∀ (x pre : List Byte), check (chainT rest GoTier.zero) (rest ++ x) pre =
      (pre ++ rest, true) := by
  induction rest with
  | nil =>
    intro x pre
    rw [List.nil_append, List.append_nil]
    exact check_zero x pre
  | cons r0 rr ih =>
    intro x pre
    have hg : (chainT (r0 :: rr) GoTier.zero).get r0 = chainT rr GoTier.zero :=
      get_uni_self r0 _
    rw [List.cons_append, check_cons, hg,
      isNil_false_of_ne _ (chainT_ne_nil rr GoTier.zero (by simp))]
    simp only [Bool.false_eq_true, if_false]
    rw [ih x (pre ++ [r0])]
    simp

lemma chain_empty_false (x0 : Byte) (xs : List Byte) :
    (chainT (x0 :: xs) GoTier.zero).empty = false := rfl

lemma check_chain_deep (r : List Byte) :
    ∀ (x pre : List Byte), x ≠ [] →
      check (chainT (r ++ x) GoTier.zero) r pre = (pre ++ r, false) := by
  induction r with
  | nil =>
    intro x pre hx
    match x with
    | x0 :: xs =>
      rw [List.nil_append, List.append_nil]
      show (pre, (chainT (x0 :: xs) GoTier.zero).empty) = (pre, false)
      rw [chain_empty_false]
  | cons r0 rr ih =>
    intro x pre hx
    have hg : (chainT ((r0 :: rr) ++ x) GoTier.zero).get r0 =
        chainT (rr ++ x) GoTier.zero := by
      rw [List.cons_append]
      exact get_uni_self r0 _
    rw [check_cons, hg,
      isNil_false_of_ne _ (chainT_ne_nil (rr ++ x) GoTier.zero (by simp))]
    simp only [Bool.false_eq_true, if_false]
    rw [ih x (pre ++ [r0]) hx]
    simp

/-- The child just installed under the head of a set path is present. -/
lemma set_get_head_ne_nil (t : GoTier) (s0 : Byte) (rest : List Byte) (sub : GoTier)
    (hwf : wfS t = true) (hne : t ≠ GoTier.nilT) (hsn : sub ≠ GoTier.nilT) :
    (t.set (s0 :: rest) sub).get s0 ≠ GoTier.nilT := by
  match rest with
  | [] =>
    rw [get_set_last t sub s0 hwf hne]
    exact hsn
  | r0 :: rest2 =>
    rw [get_set_deeper t sub s0 r0 rest2 hwf hne]
    by_cases hc : (t.get s0).isNil = true
    · rw [if_pos hc]
      exact set_ne_nil _ r0 rest2 sub (by simp)
    · rw [if_neg hc]
      refine set_ne_nil _ r0 rest2 sub ?_
      intro he
      rw [he] at hc
      exact hc rfl

/-- check walks exactly the freshly excluded path and reports it with
true. -/
lemma check_set_path (p : List Byte) :
    ∀ (t : GoTier) (x pre : List Byte), wfS t = true → t ≠ GoTier.nilT → p ≠ [] →
      check (t.set p GoTier.zero) (p ++ x) pre = (pre ++ p, true) := by
  induction p with
  | nil => intro t x pre _ _ h; exact absurd rfl h
  | cons b rest ih =>
    intro t x pre hwf hne _
    match rest, ih with
    | [], _ =>
      rw [List.cons_append, List.nil_append, check_cons,
        get_set_last t GoTier.zero b hwf hne]
      simp only [GoTier.isNil, Bool.false_eq_true, if_false]
      rw [check_zero]
    | r0 :: rest2, ih =>
      rw [List.cons_append, check_cons, get_set_deeper t GoTier.zero b r0 rest2 hwf
        hne]
      by_cases hc : (t.get b).isNil = true
      · rw [if_pos hc, fresh_set_chain]
        rw [isNil_false_of_ne _ (chainT_ne_nil _ GoTier.zero (by simp))]
        simp only [Bool.false_eq_true, if_false]
        have hcc := check_chain (r0 :: rest2) x (pre ++ [b])
        simp only [List.append_assoc, List.cons_append, List.nil_append] at hcc ⊢
        exact hcc
      · rw [if_neg hc]
        have hgn : t.get b ≠ GoTier.nilT := by
          intro he
          rw [he] at hc
          exact hc rfl
        rw [isNil_false_of_ne _ (set_ne_nil (t.get b) r0 rest2 GoTier.zero hgn)]
        simp only [Bool.false_eq_true, if_false]
        rw [ih (t.get b) x (pre ++ [b]) (wfS_get t b hwf) hgn (by simp)]
        simp

/-- After excluding a strict extension of p, the walk down p ends at an
interior (non-empty, non-zero) tier, so check reports false there. -/
lemma check_set_deep (p : List Byte) :
    ∀ (t : GoTier) (x pre : List Byte), wfS t = true → t ≠ GoTier.nilT → p ≠ [] →
      x ≠ [] → check (t.set (p ++ x) GoTier.zero) p pre = (pre ++ p, false) := by
  induction p with
  | nil => intro t x pre _ _ h _; exact absurd rfl h
  | cons b rest ih =>
    intro t x pre hwf hne _ hx
    have hcons : (b :: rest) ++ x = b :: (rest ++ x) := List.cons_append b rest x
    rw [hcons]
    have hrx : rest ++ x ≠ [] := by
      match x with
      | x0 :: xs => simp
    match hrx2 : rest ++ x, hrx with
    | r0 :: rr, _ =>
      rw [check_cons, get_set_deeper t GoTier.zero b r0 rr hwf hne]
      by_cases hc : (t.get b).isNil = true
      · rw [if_pos hc, fresh_set_chain,
          isNil_false_of_ne _ (chainT_ne_nil _ GoTier.zero (by simp))]
        simp only [Bool.false_eq_true, if_false]
        rw [← hrx2, check_chain_deep rest x (pre ++ [b]) hx]
        simp
      · rw [if_neg hc]
        have hgn : t.get b ≠ GoTier.nilT := by
          intro he
          rw [he] at hc
          exact hc rfl
        rw [isNil_false_of_ne _ (set_ne_nil (t.get b) r0 rr GoTier.zero hgn)]
        simp only [Bool.false_eq_true, if_false]
        match rest with
        | [] =>
          have hemp : ((t.get b).set (r0 :: rr) GoTier.zero).empty = false := by
            refine empty_false_of_get _ r0 ?_
            intro he
            exact set_get_head_ne_nil (t.get b) r0 rr GoTier.zero
              (wfS_get t b hwf) hgn (by simp) ((isNil_iff _).1 he)
          show (pre ++ [b], ((t.get b).set (r0 :: rr) GoTier.zero).empty) =
            (pre ++ [b], false)
          rw [hemp]
        | b2 :: rest2 =>
          rw [← hrx2]
          rw [ih (t.get b) x (pre ++ [b]) (wfS_get t b hwf) hgn (by simp) hx]
          simp

/-- wfS holds for the nil tier. -/
lemma wfS_nilT : wfS GoTier.nilT = true := rfl

/-- wfS holds for the zerotier. -/
lemma wfS_zero : wfS GoTier.zero = true := rfl

/-- wfS holds for a fresh unitier with no child. -/
lemma wfS_uni_nil (b : Byte) : wfS (GoTier.uni b GoTier.nilT) = true := rfl

/-- A walk of the check helper that runs off the trie: it reaches a byte
whose child is missing, and the tier it falls off of is not empty.  In the
frontier the only empty tiers are nil and the zerotier, so this captures a
walk that runs off the trie without passing through a Zero. -/
def runsOffNoZero : GoTier → List Byte → Bool
  | _, [] => false
  | t, q0 :: qrest =>
      if (t.get q0).isNil then !t.empty else runsOffNoZero (t.get q0) qrest

lemma runsOffNoZero_nil (t : GoTier) : runsOffNoZero t [] = false := rfl

lemma runsOffNoZero_cons (t : GoTier) (q0 : Byte) (qrest : List Byte) :
    runsOffNoZero t (q0 :: qrest) =
      if (t.get q0).isNil = true then !t.empty
      else runsOffNoZero (t.get q0) qrest := rfl

/-- Running off the trie from the top: the top tier is present and
non-empty (so Frontier.Check actually descends) and the recursive walk
falls off without meeting an empty tier. -/
def FrontierRunsOff (t : GoTier) (q : List Byte) : Bool :=
  !t.isNil && !t.empty && runsOffNoZero t q

lemma check_runs_off (q : List Byte) :
    ∀ (t : GoTier) (pre : List Byte), runsOffNoZero t q = true →
      (check t q pre).2 = false := by
  induction q with
  | nil =>
    intro t pre h
    rw [runsOffNoZero_nil] at h
    exact absurd h (by simp)
  | cons q0 qrest ih =>
    intro t pre h
    rw [runsOffNoZero_cons] at h
    rw [check_cons]
    by_cases hc : (t.get q0).isNil = true
    · rw [if_pos hc] at h ⊢
      simp only [Bool.not_eq_true'] at h
      exact h
    · rw [if_neg hc] at h ⊢
      exact ih (t.get q0) (pre ++ [q0]) h

/-- When the top tier is present and non-empty, Frontier.Check is the
recursive helper started with an empty prefix. -/
lemma frontierCheck_of_ne (t : GoTier) (q : List Byte) (h1 : t.isNil = false)
    (h2 : t.empty = false) : Frontier.Check t q = check t q [] := by
  unfold Frontier.Check
  rw [h1, h2]
  simp

/-- Exclude on a non-empty string unfolds to a set of the zerotier. -/
lemma exclude_cons (t : GoTier) (s0 : Byte) (rest : List Byte) :
    Frontier.Exclude t (s0 :: rest) =
      (if t.isNil = true then GoTier.uni s0 GoTier.nilT else t).set (s0 :: rest)
        GoTier.zero := rfl

/-- After Exclude(p), Check finds the excluded prefix p of p ++ x. -/
lemma exclude_check_path (t : GoTier) (p x : List Byte) (hwf : wfS t = true)
    (hp : p ≠ []) :
    Frontier.Check (Frontier.Exclude t p) (p ++ x) = (p, true) := by
  match p, hp with
  | s0 :: rest, _ =>
    have hmain : ∀ b : GoTier, wfS b = true → b ≠ GoTier.nilT →
        Frontier.Check (b.set (s0 :: rest) GoTier.zero) ((s0 :: rest) ++ x)
          = (s0 :: rest, true) := by
      intro b hb hbne
      have hnn : b.set (s0 :: rest) GoTier.zero ≠ GoTier.nilT :=
        set_ne_nil b s0 rest GoTier.zero hbne
      have hge : (b.set (s0 :: rest) GoTier.zero).get s0 ≠ GoTier.nilT :=
        set_get_head_ne_nil b s0 rest GoTier.zero hb hbne (by simp)
      have hemp : (b.set (s0 :: rest) GoTier.zero).empty = false :=
        empty_false_of_get _ s0 (by intro h2; exact hge ((isNil_iff _).1 h2))
      rw [frontierCheck_of_ne _ _ (isNil_false_of_ne _ hnn) hemp,
        check_set_path (s0 :: rest) b x [] hb hbne (by simp)]
      simp
    rw [exclude_cons]
    by_cases ht : t.isNil = true
    · rw [if_pos ht]
      exact hmain _ (wfS_uni_nil s0) (by simp)
    · rw [if_neg ht]
      exact hmain t hwf (by intro he; rw [he] at ht; exact ht rfl)

/-- Claim C5: after Exclude(p) with p non-empty (as the most recent
exclusion affecting that path), Check on any extension p ++ x reports the
pair (p, true); and Check reports false on any string whose byte-by-byte
walk runs off the trie without passing through a Zero tier. -/
theorem c5_prefix_check (t : GoTier) (p x q : List Byte)
    (hwf : wfS t = true) (hp : p ≠ []) :
    Frontier.Check (Frontier.Exclude t p) (p ++ x) = (p, true) ∧
      (FrontierRunsOff t q = true → (Frontier.Check t q).2 = false) := by
  refine ⟨exclude_check_path t p x hwf hp, ?_⟩
  intro hro
  unfold FrontierRunsOff at hro
  simp only [Bool.and_eq_true, Bool.not_eq_true'] at hro
  obtain ⟨⟨h1, h2⟩, h3⟩ := hro
  rw [frontierCheck_of_ne t q h1 h2]
  exact check_runs_off q t [] h3

theorem c5_prefix_check_witness :
    wfS (GoTier.uni 0 GoTier.zero) = true ∧ ([1] : List Byte) ≠ [] ∧
      FrontierRunsOff (GoTier.uni 0 GoTier.zero) [1] = true ∧
      (Frontier.Check (Frontier.Exclude (GoTier.uni 0 GoTier.zero) [1]) ([1] ++ [2])
          = ([1], true) ∧
        (FrontierRunsOff (GoTier.uni 0 GoTier.zero) [1] = true →
          (Frontier.Check (GoTier.uni 0 GoTier.zero) [1]).2 = false)) :=
  ⟨rfl, by simp, by decide,
    c5_prefix_check (GoTier.uni 0 GoTier.zero) [1] [2] [1] rfl (by simp)⟩

/-- Claim C10: excluding a proper extension p ++ x after excluding p
replaces the Zero terminal at p by an interior node, so Check(p) now
reports false (the walk reaches depth p and finds a non-empty interior
there) while Check(p ++ x) reports (p ++ x, true). -/
theorem c10_extension_reopens (t : GoTier) (p x : List Byte)
    (hwf : wfS t = true) (hp : p ≠ []) (hx : x ≠ []) :
    (Frontier.Check (Frontier.Exclude (Frontier.Exclude t p) (p ++ x)) p).2
        = false ∧
      Frontier.Check (Frontier.Exclude (Frontier.Exclude t p) (p ++ x)) (p ++ x)
        = (p ++ x, true) := by
  match p, hp with
  | s0 :: rest, _ =>
    have hx2 : (s0 :: rest) ++ x = s0 :: (rest ++ x) := List.cons_append s0 rest x
    have hwfb : wfS (if t.isNil = true then GoTier.uni s0 GoTier.nilT else t)
        = true := by
      by_cases ht : t.isNil = true
      · rw [if_pos ht]; exact wfS_uni_nil s0
      · rw [if_neg ht]; exact hwf
    have hbne : (if t.isNil = true then GoTier.uni s0 GoTier.nilT else t)
        ≠ GoTier.nilT := by
      by_cases ht : t.isNil = true
      · rw [if_pos ht]; simp
      · rw [if_neg ht]; intro he; rw [he] at ht; exact ht rfl
    have hwf1 : wfS (Frontier.Exclude t (s0 :: rest)) = true := by
      rw [exclude_cons]
      exact wfS_set (s0 :: rest) _ GoTier.zero hwfb wfS_zero (by simp)
    have hne1 : Frontier.Exclude t (s0 :: rest) ≠ GoTier.nilT := by
      rw [exclude_cons]
      exact set_ne_nil _ s0 rest GoTier.zero hbne
    have hexc2 : Frontier.Exclude (Frontier.Exclude t (s0 :: rest))
          ((s0 :: rest) ++ x)
        = (Frontier.Exclude t (s0 :: rest)).set ((s0 :: rest) ++ x)
            GoTier.zero := by
      rw [hx2, exclude_cons,
        if_neg (by rw [isNil_false_of_ne _ hne1]; exact Bool.false_ne_true)]
    have hne2 : (Frontier.Exclude t (s0 :: rest)).set ((s0 :: rest) ++ x)
        GoTier.zero ≠ GoTier.nilT := by
      rw [hx2]
      exact set_ne_nil _ s0 (rest ++ x) GoTier.zero hne1
    have hge2 : ((Frontier.Exclude t (s0 :: rest)).set ((s0 :: rest) ++ x)
        GoTier.zero).get s0 ≠ GoTier.nilT := by
      rw [hx2]
      exact set_get_head_ne_nil _ s0 (rest ++ x) GoTier.zero hwf1 hne1 (by simp)
    have hemp2 : ((Frontier.Exclude t (s0 :: rest)).set ((s0 :: rest) ++ x)
        GoTier.zero).empty = false :=
      empty_false_of_get _ s0 (by intro h2; exact hge2 ((isNil_iff _).1 h2))
    constructor
    · rw [hexc2, frontierCheck_of_ne _ _ (isNil_false_of_ne _ hne2) hemp2,
        check_set_deep (s0 :: rest) (Frontier.Exclude t (s0 :: rest)) x []
          hwf1 hne1 (by simp) hx]
    · rw [hexc2, frontierCheck_of_ne _ _ (isNil_false_of_ne _ hne2) hemp2]
      have hcp := check_set_path ((s0 :: rest) ++ x)
        (Frontier.Exclude t (s0 :: rest)) [] [] hwf1 hne1 (by simp)
      rw [List.append_nil] at hcp
      rw [hcp]
      simp

theorem c10_extension_reopens_witness :
    wfS GoTier.nilT = true ∧ ([0] : List Byte) ≠ [] ∧ ([1] : List Byte) ≠ [] ∧
      ((Frontier.Check (Frontier.Exclude (Frontier.Exclude GoTier.nilT [0])
          ([0] ++ [1])) [0]).2 = false ∧
        Frontier.Check (Frontier.Exclude (Frontier.Exclude GoTier.nilT [0])
            ([0] ++ [1])) ([0] ++ [1]) = ([0] ++ [1], true)) :=
  ⟨rfl, by simp, by simp,
    c10_extension_reopens GoTier.nilT [0] [1] rfl (by simp) (by simp)⟩

/-- Whether a tier is a slicetier (the sorted-vector Sparse variant). -/
def isSliceT : GoTier → Bool
  | GoTier.slice _ => true
  | _ => false

/-- Whether a tier is an arraytier (the 256-slot Dense variant). -/
def isArrT : GoTier → Bool
  | GoTier.arr _ => true
  | _ => false

/-- Claim C7 is refuted: a unitier holding edge 0 that receives its second
distinct key 1 promotes to an arraytier (Dense), not to a slicetier
(Sparse).  unitier.set allocates new(arraytier) on a key mismatch. -/
theorem c7_counterexample :
    isSliceT ((GoTier.uni 0 GoTier.zero).set [1] GoTier.zero) = false ∧
      isArrT ((GoTier.uni 0 GoTier.zero).set [1] GoTier.zero) = true :=
  ⟨rfl, rfl⟩

/-- Claim C7, amended: when a unitier holding edge b receives a set whose
first path byte a differs from b, it promotes to a Dense arraytier holding
the old child at slot b, the freshly built branch (a chain of unitiers
ending in the new subtier) at slot a, and nil everywhere else. -/
theorem c7_amended (b a : Byte) (c sub : GoTier) (rest : List Byte)
    (hne : a ≠ b) :
    isArrT ((GoTier.uni b c).set (a :: rest) sub) = true ∧
      ((GoTier.uni b c).set (a :: rest) sub).get b = c ∧
      ((GoTier.uni b c).set (a :: rest) sub).get a = chainT rest sub ∧
      ∀ z : Byte, z ≠ a → z ≠ b →
        ((GoTier.uni b c).set (a :: rest) sub).get z = GoTier.nilT := by
  have hba : ¬ b = a := fun h => hne h.symm
  have hvba : b.val ≠ a.val := val_ne_of_ne b a (fun h => hba h)
  match rest with
  | [] =>
    rw [set_uni_last, if_neg hba]
    refine ⟨rfl, ?_, ?_, ?_⟩
    · show (((List.replicate 256 GoTier.nilT).set b.val c).set a.val sub).getD
        b.val GoTier.nilT = c
      rw [getD_set_other _ _ _ _ (fun h => hvba h.symm)]
      exact getD_replicate_set_self c b.val b.isLt
    · show (((List.replicate 256 GoTier.nilT).set b.val c).set a.val sub).getD
        a.val GoTier.nilT = chainT [] sub
      have hlt : a.val < ((List.replicate 256 GoTier.nilT).set b.val c).length := by
        rw [List.length_set, List.length_replicate]
        exact a.isLt
      rw [getD_set_self _ a.val sub hlt]
      rfl
    · intro z hza hzb
      show (((List.replicate 256 GoTier.nilT).set b.val c).set a.val sub).getD
        z.val GoTier.nilT = GoTier.nilT
      rw [getD_set_other _ _ _ _ (val_ne_of_ne a z (fun hh => hza hh.symm))]
      exact getD_replicate_set_other c b.val z.val
        (fun h => val_ne_of_ne b z (fun hh => hzb hh.symm) h)
  | r0 :: rest2 =>
    rw [set_uni_deep, if_neg hba,
      if_pos (by rw [getD_replicate_set_other c b.val a.val hvba]; rfl),
      fresh_set_chain]
    refine ⟨rfl, ?_, ?_, ?_⟩
    · show (((List.replicate 256 GoTier.nilT).set b.val c).set a.val
        (chainT (r0 :: rest2) sub)).getD b.val GoTier.nilT = c
      rw [getD_set_other _ _ _ _ (fun h => hvba h.symm)]
      exact getD_replicate_set_self c b.val b.isLt
    · show (((List.replicate 256 GoTier.nilT).set b.val c).set a.val
        (chainT (r0 :: rest2) sub)).getD a.val GoTier.nilT
          = chainT (r0 :: rest2) sub
      have hlt : a.val < ((List.replicate 256 GoTier.nilT).set b.val c).length := by
        rw [List.length_set, List.length_replicate]
        exact a.isLt
      rw [getD_set_self _ a.val _ hlt]
    · intro z hza hzb
      show (((List.replicate 256 GoTier.nilT).set b.val c).set a.val
        (chainT (r0 :: rest2) sub)).getD z.val GoTier.nilT = GoTier.nilT
      rw [getD_set_other _ _ _ _ (val_ne_of_ne a z (fun hh => hza hh.symm))]
      exact getD_replicate_set_other c b.val z.val
        (fun h => val_ne_of_ne b z (fun hh => hzb hh.symm) h)

theorem c7_amended_witness :
    (1 : Byte) ≠ 0 ∧
      (isArrT ((GoTier.uni 0 GoTier.zero).set [1] GoTier.zero) = true ∧
        ((GoTier.uni 0 GoTier.zero).set [1] GoTier.zero).get 0 = GoTier.zero ∧
        ((GoTier.uni 0 GoTier.zero).set [1] GoTier.zero).get 1
          = chainT [] GoTier.zero ∧
        ((GoTier.uni 0 GoTier.zero).set [1] GoTier.zero).get 2 = GoTier.nilT) := by
  obtain ⟨h1, h2, h3, h4⟩ :=
    c7_amended 0 1 GoTier.zero GoTier.zero [] (by decide)
  exact ⟨by decide, h1, h2, h3, h4 2 (by decide) (by decide)⟩

/-- Shape equality of two tiers: the same children are present at every
byte, recursively.  The walk inspects a tier only through get, so
shape-equal tiers — for example a maptier, an arraytier and a slicetier
holding the same children — are interchangeable for Walk. -/
def EqShape (t1 t2 : GoTier) : Prop :=
  ∀ b : Byte, (t1.get b).isNil = (t2.get b).isNil ∧
    ∀ h : ¬(t1.get b).isNil = true, EqShape (t1.get b) (t2.get b)
  termination_by sizeOf t1
  decreasing_by exact sizeOf_get_lt t1 b h

lemma EqShape_def (t1 t2 : GoTier) :
    EqShape t1 t2 ↔ ∀ b : Byte, (t1.get b).isNil = (t2.get b).isNil ∧
      ∀ h : ¬(t1.get b).isNil = true, EqShape (t1.get b) (t2.get b) := by
  rw [EqShape]

lemma EqShape_refl (t : GoTier) : EqShape t t := by
  rw [EqShape_def]
  intro b
  exact ⟨rfl, fun h => EqShape_refl (t.get b)⟩
  termination_by sizeOf t
  decreasing_by exact sizeOf_get_lt t b h

lemma emit_eqShape (t1 t2 : GoTier) (he : EqShape t1 t2) :
    ∀ pre, emit t1 pre = emit t2 pre := by
  intro pre
  rw [emit, emit]
  have hf : (fun b => if h : (t1.get b).isNil = true then [pre ++ [b]]
        else emit (t1.get b) (pre ++ [b]))
      = fun b => if h : (t2.get b).isNil = true then [pre ++ [b]]
        else emit (t2.get b) (pre ++ [b]) := by
    funext b
    obtain ⟨h1, h2⟩ := (EqShape_def t1 t2).1 he b
    by_cases hc : (t1.get b).isNil = true
    · rw [dif_pos hc, dif_pos (h1 ▸ hc)]
    · rw [dif_neg hc, dif_neg (by rw [← h1]; exact hc)]
      exact emit_eqShape (t1.get b) (t2.get b) (h2 hc) (pre ++ [b])
  rw [hf]
  termination_by sizeOf t1
  decreasing_by exact sizeOf_get_lt t1 b hc

/-- set (of a zerotier terminal, along a common path) preserves shape
equality of well-formed tiers. -/
lemma eqShape_set (p : List Byte) :
    ∀ (t1 t2 : GoTier), wfS t1 = true → wfS t2 = true →
      t1 ≠ GoTier.nilT → t2 ≠ GoTier.nilT → EqShape t1 t2 → p ≠ [] →
      EqShape (t1.set p GoTier.zero) (t2.set p GoTier.zero) := by
  induction p with
  | nil => intro _ _ _ _ _ _ _ hp; exact absurd rfl hp
  | cons s0 rest ih =>
    intro t1 t2 hw1 hw2 hn1 hn2 he _
    rw [EqShape_def]
    intro b
    by_cases hb : b = s0
    · subst hb
      match rest with
      | [] =>
        rw [get_set_last t1 GoTier.zero b hw1 hn1,
          get_set_last t2 GoTier.zero b hw2 hn2]
        exact ⟨rfl, fun _ => EqShape_refl GoTier.zero⟩
      | r0 :: rest2 =>
        rw [get_set_deeper t1 GoTier.zero b r0 rest2 hw1 hn1,
          get_set_deeper t2 GoTier.zero b r0 rest2 hw2 hn2]
        obtain ⟨h1, h2⟩ := (EqShape_def t1 t2).1 he b
        by_cases hc : (t1.get b).isNil = true
        · rw [if_pos hc, if_pos (h1 ▸ hc)]
          exact ⟨rfl, fun _ => EqShape_refl _⟩
        · have hc2 : ¬(t2.get b).isNil = true := by rw [← h1]; exact hc
          rw [if_neg hc, if_neg hc2]
          have hg1 : t1.get b ≠ GoTier.nilT := by
            intro hh; rw [hh] at hc; exact hc rfl
          have hg2 : t2.get b ≠ GoTier.nilT := by
            intro hh; rw [hh] at hc2; exact hc2 rfl
          have hrec := ih (t1.get b) (t2.get b) (wfS_get t1 b hw1)
            (wfS_get t2 b hw2) hg1 hg2 (h2 hc) (by simp)
          constructor
          · rw [isNil_false_of_ne _
                (set_ne_nil (t1.get b) r0 rest2 GoTier.zero hg1),
              isNil_false_of_ne _
                (set_ne_nil (t2.get b) r0 rest2 GoTier.zero hg2)]
          · intro _
            exact hrec
    · rw [get_set_other t1 GoTier.zero s0 rest b hb,
        get_set_other t2 GoTier.zero s0 rest b hb]
      exact (EqShape_def t1 t2).1 he b

/-- Shape equality lifted to the (possibly nil) top tier of a frontier. -/
def EqTop (t1 t2 : GoTier) : Prop :=
  t1.isNil = t2.isNil ∧ (¬t1.isNil = true → EqShape t1 t2)

lemma wfS_exclude (t : GoTier) (p : List Byte) (hw : wfS t = true) :
    wfS (Frontier.Exclude t p) = true := by
  match p with
  | [] => exact hw
  | s0 :: rest =>
    rw [exclude_cons]
    refine wfS_set (s0 :: rest) _ GoTier.zero ?_ wfS_zero (by simp)
    by_cases hn : t.isNil = true
    · rw [if_pos hn]; exact wfS_uni_nil s0
    · rw [if_neg hn]; exact hw

lemma eqTop_exclude (t1 t2 : GoTier) (p : List Byte) (hw1 : wfS t1 = true)
    (hw2 : wfS t2 = true) (he : EqTop t1 t2) :
    EqTop (Frontier.Exclude t1 p) (Frontier.Exclude t2 p) := by
  match p with
  | [] => exact he
  | s0 :: rest =>
    rw [exclude_cons, exclude_cons]
    obtain ⟨h1, h2⟩ := he
    by_cases hn : t1.isNil = true
    · rw [if_pos hn, if_pos (h1 ▸ hn)]
      exact ⟨rfl, fun _ => EqShape_refl _⟩
    · have hn2b : ¬t2.isNil = true := by rw [← h1]; exact hn
      rw [if_neg hn, if_neg hn2b]
      have hn1 : t1 ≠ GoTier.nilT := fun hh => hn (by rw [hh]; rfl)
      have hn2 : t2 ≠ GoTier.nilT := fun hh => hn2b (by rw [hh]; rfl)
      constructor
      · rw [isNil_false_of_ne _ (set_ne_nil t1 s0 rest GoTier.zero hn1),
          isNil_false_of_ne _ (set_ne_nil t2 s0 rest GoTier.zero hn2)]
      · intro _
        exact eqShape_set (s0 :: rest) t1 t2 hw1 hw2 hn1 hn2 (h2 hn) (by simp)

lemma walk_eqTop (t1 t2 : GoTier) (he : EqTop t1 t2) :
    Frontier.Walk t1 = Frontier.Walk t2 := by
  obtain ⟨h1, h2⟩ := he
  unfold Frontier.Walk
  rw [h1]
  by_cases hn : t2.isNil = true
  · rw [if_pos hn, if_pos hn]
  · rw [if_neg hn, if_neg hn]
    exact emit_eqShape t1 t2 (h2 (by rw [h1]; exact hn)) []

lemma foldl_exclude_inv (ps : List (List Byte)) :
    ∀ t1 t2, wfS t1 = true → wfS t2 = true → EqTop t1 t2 →
      wfS (ps.foldl Frontier.Exclude t1) = true ∧
      wfS (ps.foldl Frontier.Exclude t2) = true ∧
      EqTop (ps.foldl Frontier.Exclude t1) (ps.foldl Frontier.Exclude t2) := by
  induction ps with
  | nil => intro t1 t2 h1 h2 he; exact ⟨h1, h2, he⟩
  | cons p ps ih =>
    intro t1 t2 h1 h2 he
    rw [List.foldl_cons, List.foldl_cons]
    exact ih _ _ (wfS_exclude t1 p h1) (wfS_exclude t2 p h2)
      (eqTop_exclude t1 t2 p h1 h2 he)

/-- The Merkle root of a frontier: add every string emitted by Walk as a
leaf of a fresh Merkle tree and take its root, as VerifyFrontier does. -/
def FrontierMerkleRoot (H : Hasher) (t : GoTier) : Digest :=
  Tree.Root H (Tree.AddAll H NewTree (Frontier.Walk t))

/-- Claim C9: the Merkle root computed from a frontier's walk does not
depend on which tier variants (maptier, 256-slot arraytier, or the
zero/uni/sorted-vector ladder) represent the trie nodes: any two
well-formed, shape-equal frontiers — in particular ones holding the same
children in different variants — yield the same root, and continue to do
so after any further common sequence of Exclude calls. -/
theorem c9_tier_variant_equivalence (H : Hasher) (t1 t2 : GoTier)
    (ps : List (List Byte)) (h1 : wfS t1 = true) (h2 : wfS t2 = true)
    (he : EqTop t1 t2) :
    FrontierMerkleRoot H (ps.foldl Frontier.Exclude t1)
      = FrontierMerkleRoot H (ps.foldl Frontier.Exclude t2) := by
  obtain ⟨_, _, hetop⟩ := foldl_exclude_inv ps t1 t2 h1 h2 he
  unfold FrontierMerkleRoot
  rw [walk_eqTop _ _ hetop]

set_option maxRecDepth 4096 in
theorem c9_tier_variant_equivalence_witness :
    wfS (GoTier.mapt [(0, GoTier.zero)]) = true ∧
      wfS (GoTier.arr ((List.replicate 256 GoTier.nilT).set 0 GoTier.zero))
        = true ∧
      EqTop (GoTier.mapt [(0, GoTier.zero)])
        (GoTier.arr ((List.replicate 256 GoTier.nilT).set 0 GoTier.zero)) ∧
      FrontierMerkleRoot (fun l => l)
          ([[0, 1]].foldl Frontier.Exclude (GoTier.mapt [(0, GoTier.zero)]))
        = FrontierMerkleRoot (fun l => l)
            ([[0, 1]].foldl Frontier.Exclude
              (GoTier.arr ((List.replicate 256 GoTier.nilT).set 0
                GoTier.zero))) := by
  have hsh : EqShape (GoTier.mapt [(0, GoTier.zero)])
      (GoTier.arr ((List.replicate 256 GoTier.nilT).set 0 GoTier.zero)) := by
    rw [EqShape_def]
    intro b
    constructor
    · revert b
      decide
    · intro h
      by_cases hb : b = (0 : Byte)
      · subst hb
        have e1 : (GoTier.mapt [(0, GoTier.zero)]).get 0 = GoTier.zero := rfl
        have e2 : (GoTier.arr ((List.replicate 256 GoTier.nilT).set 0
            GoTier.zero)).get 0 = GoTier.zero := rfl
        rw [e1, e2]
        exact EqShape_refl GoTier.zero
      · exfalso
        apply h
        show (lookupT [(0, GoTier.zero)] b).isNil = true
        rw [show lookupT [(0, GoTier.zero)] b
            = if (0 : Byte) = b then GoTier.zero else lookupT [] b from rfl,
          if_neg (fun hh => hb hh.symm)]
        rfl
  have het : EqTop (GoTier.mapt [(0, GoTier.zero)])
      (GoTier.arr ((List.replicate 256 GoTier.nilT).set 0 GoTier.zero)) :=
    ⟨rfl, fun _ => hsh⟩
  exact ⟨rfl, rfl, het,
    c9_tier_variant_equivalence (fun l => l) (GoTier.mapt [(0, GoTier.zero)])
      (GoTier.arr ((List.replicate 256 GoTier.nilT).set 0 GoTier.zero))
      [[0, 1]] rfl rfl het⟩

end Merkle
